import Mathlib

/-!
Verification development for the price-tracker extraction and check pipeline.

The TypeScript sources are shallowly embedded: JS numbers are modelled as
exact rationals (ℚ), JS strings as Lean strings processed as character
lists, nullable values as Option, and JSON payloads as an inductive Json
value. Fields of extraction results that no claim touches (evidence text,
sha256 content hashes) are omitted from the embedded records.
-/

namespace PriceTracker

/-- Character classes used by the numeric-token regex of price.ts.
JS \s is modelled by ASCII whitespace; the parser normalizes whitespace
before matching, so only the space character can occur inside a token. -/
def isWsChar (c : Char) : Bool :=
  c = ' ' || c = '\t' || c = '\n' || c = '\r'

def isDigitChar (c : Char) : Bool :=
  '0' ≤ c && c ≤ '9'

/-- The separator class [.,] of the regex in price.ts. -/
def isSepChar (c : Char) : Bool :=
  c = '.' || c = ','

/-- The separator-or-space class [.,\s] of the thousands groups. -/
def isSepSpChar (c : Char) : Bool :=
  isSepChar c || isWsChar c

/-- Embeds input.replace(/\s+/g, " "): collapse every whitespace run to a
single space. The Bool flag records whether the previous character was
whitespace. -/
def collapseWsGo : Bool → List Char → List Char
  | _, [] => []
  | prevWs, c :: rest =>
    if isWsChar c then
      if prevWs then collapseWsGo true rest
      else ' ' :: collapseWsGo true rest
    else c :: collapseWsGo false rest

def collapseWs (l : List Char) : List Char :=
  collapseWsGo false l

/-- Embeds String.prototype.trim (ASCII whitespace). -/
def trimWs (l : List Char) : List Char :=
  ((l.dropWhile isWsChar).reverse.dropWhile isWsChar).reverse

/-- Matches one thousands group (?:[.,\s][0-9]{3}) of the price regex,
returning consumed characters and the remainder. -/
def matchThousandsGroup : List Char → Option (List Char × List Char)
  | c :: d1 :: d2 :: d3 :: rest =>
    if isSepSpChar c && isDigitChar d1 && isDigitChar d2 && isDigitChar d3 then
      some ([c, d1, d2, d3], rest)
    else none
  | _ => none

/-- Matches the decimal tail (?:[.,][0-9]{2}) of the price regex. -/
def matchDecimalTail : List Char → Option (List Char)
  | c :: d1 :: d2 :: _ =>
    if isSepChar c && isDigitChar d1 && isDigitChar d2 then
      some [c, d1, d2]
    else none
  | _ => none

/-- Backtracking matcher for (?:[.,\s][0-9]{3})*(?:[.,][0-9]{2}) in greedy
order: prefer consuming another thousands group; on failure of the
continuation, stop the star and match the decimal tail here. Fuel equals the
input length, which is enough because each group consumes four characters. -/
def matchGroupsThenTail : Nat → List Char → Option (List Char)
  | 0, cs => matchDecimalTail cs
  | fuel + 1, cs =>
    match matchThousandsGroup cs with
    | some (grp, rest) =>
      match matchGroupsThenTail fuel rest with
      | some more => some (grp ++ more)
      | none => matchDecimalTail cs
    | none => matchDecimalTail cs

/-- First regex alternative [0-9]{1,3}(?:[.,\s][0-9]{3})*(?:[.,][0-9]{2}),
trying the lead digit counts in the greedy order 3, 2, 1. -/
def matchAltGrouped (cs : List Char) : Option (List Char) :=
  tryLead 3 <|> tryLead 2 <|> tryLead 1
where
  tryLead (k : Nat) : Option (List Char) :=
    let ds := cs.take k
    if ds.length = k && ds.all isDigitChar then
      (matchGroupsThenTail (cs.drop k).length (cs.drop k)).map (fun t => ds ++ t)
    else none

/-- Second regex alternative [0-9]+(?:[.,][0-9]{2})?. -/
def matchAltPlain (cs : List Char) : Option (List Char) :=
  let ds := cs.takeWhile isDigitChar
  if ds.isEmpty then none
  else some (ds ++ ((matchDecimalTail (cs.drop ds.length)).getD []))

/-- Leftmost match of the numeric-token regex of price.ts, preferring the
grouped alternative at each start position, as the JS engine does. -/
def firstNumericToken : List Char → Option (List Char)
  | [] => none
  | c :: rest =>
    match matchAltGrouped (c :: rest) with
    | some t => some t
    | none =>
      match matchAltPlain (c :: rest) with
      | some t => some t
      | none => firstNumericToken rest

/-- Embeds String.prototype.lastIndexOf restricted to single characters. -/
def lastIdxOf (ch : Char) (l : List Char) : Option Nat :=
  match (l.reverse).findIdx? (fun c => c = ch) with
  | some j => some (l.length - 1 - j)
  | none => none

/-- Embeds detectDecimalSeparator of price.ts: with both separators present
the later one wins; with one present it is decimal only when exactly two
characters trail it. -/
def detectDecimalSeparator (raw : List Char) : Option Char :=
  match lastIdxOf '.' raw, lastIdxOf ',' raw with
  | some dot, some comma => some (if comma < dot then '.' else ',')
  | some dot, none => if raw.length - dot - 1 = 2 then some '.' else none
  | none, some comma => if raw.length - comma - 1 = 2 then some ',' else none
  | none, none => none

/-- Replaces the first comma by a dot, as value.replace(",", ".") does. -/
def replaceFirstComma : List Char → List Char
  | [] => []
  | c :: rest => if c = ',' then '.' :: rest else c :: replaceFirstComma rest

/-- Embeds normalizeNumber of price.ts. -/
def normalizeNumber (raw : List Char) (sep : Option Char) : List Char :=
  match sep with
  | some '.' => raw.filter (fun c => c ≠ ',')
  | some ',' => replaceFirstComma (raw.filter (fun c => c ≠ '.'))
  | _ => raw.filter (fun c => !isSepChar c)

def digitsToNat (ds : List Char) : Nat :=
  ds.foldl (fun n c => 10 * n + (c.toNat - '0'.toNat)) 0

/-- Embeds Number.parseFloat on the normalized token: a digit run, an
optional dot, and a fractional digit run, stopping at the first character
that cannot continue the number (JS prefix parsing). none models NaN. -/
def parseFloatQ (l : List Char) : Option ℚ :=
  let intDs := l.takeWhile isDigitChar
  let rest := l.drop intDs.length
  if intDs.isEmpty then
    match rest with
    | '.' :: more =>
      let fracDs := more.takeWhile isDigitChar
      if fracDs.isEmpty then none
      else some ((digitsToNat fracDs : ℚ) / ((10 : ℚ) ^ fracDs.length))
    | _ => none
  else
    match rest with
    | '.' :: more =>
      let fracDs := more.takeWhile isDigitChar
      some ((digitsToNat intDs : ℚ) + (digitsToNat fracDs : ℚ) / ((10 : ℚ) ^ fracDs.length))
    | _ => some (digitsToNat intDs : ℚ)

/-- Embeds Math.round: round half toward positive infinity. -/
def jsRound (q : ℚ) : ℤ :=
  ⌊q + 1 / 2⌋

structure ParsedPrice where
  priceCents : ℤ
  rawNumber : ℚ
deriving DecidableEq, Repr

/-- The raw numeric token: the regex match with its whitespace removed, as
numberMatch[1].replace(/\s/g, "") computes it. -/
def rawToken (tok : List Char) : List Char :=
  tok.filter (fun c => !isWsChar c)

/-- Embeds parsePriceFromText of price.ts: whitespace-normalize, match the
first numeric token, strip spaces, pick the decimal separator, normalize,
parse, reject non-positive values, convert to cents. -/
def parsePriceFromText (input : String) : Option ParsedPrice :=
  let trimmed := trimWs (collapseWs input.data)
  match firstNumericToken trimmed with
  | none => none
  | some tok =>
    let raw := rawToken tok
    let sep := detectDecimalSeparator raw
    let normalized := normalizeNumber raw sep
    match parseFloatQ normalized with
    | none => none
    | some value =>
      if value ≤ 0 then none
      else some ⟨jsRound (value * 100), value⟩

def isAlnumChar (c : Char) : Bool :=
  ('a' ≤ c && c ≤ 'z') || ('A' ≤ c && c ≤ 'Z') || isDigitChar c

def isUpperChar (c : Char) : Bool :=
  'A' ≤ c && c ≤ 'Z'

/-- Word characters of the JS regex \b boundary: [A-Za-z0-9_]. -/
def isWordChar (c : Char) : Bool :=
  isAlnumChar c || c = '_'

/-- ASCII lowering, modelling String.prototype.toLowerCase on the
characters the pipeline manipulates. -/
def lowerChar (c : Char) : Char :=
  if 'A' ≤ c && c ≤ 'Z' then Char.ofNat (c.toNat + 32) else c

def lowerStr (l : List Char) : List Char :=
  l.map lowerChar

def toLowerS (s : String) : String :=
  String.mk (lowerStr s.data)

/-- Embeds String.prototype.includes: needle occurs as a contiguous
substring. -/
def containsSub (needle l : List Char) : Bool :=
  l.tails.any (fun t => needle.isPrefixOf t)

/-- A JS \b word boundary between two neighboring positions: exactly one
side is a word character (a missing side counts as non-word). -/
def isBoundary (left right : Option Char) : Bool :=
  (match left with | none => false | some c => isWordChar c)
    != (match right with | none => false | some c => isWordChar c)

inductive StockState where
  | IN_STOCK
  | OUT_OF_STOCK
  | PARTIAL
  | UNKNOWN
deriving DecidableEq, Repr

/-- The availability phrases stripped from variant labels by
sanitizeVariantLabel, in the order of the regex alternation. -/
def availPhrases : List (List Char) :=
  ["out of stock".data, "sold out".data, "unavailable".data, "in stock".data,
   "available now".data, "add to cart".data, "buy now".data]

/-- Case-insensitive match of one availability phrase at the head of l with
\b boundaries on both sides (prev is the character just before l in the
scanned string). Returns the phrase length on success. -/
def matchAvailPhrase (prev : Option Char) (l : List Char) : Option Nat :=
  availPhrases.findSome? (fun p =>
    if p.length ≤ l.length
        && lowerStr (l.take p.length) == p
        && isBoundary prev (l.head?)
        && isBoundary (l.get? (p.length - 1)) (l.get? p.length) then
      some p.length
    else none)

/-- Global removal of availability phrases, scanning left to right with
non-overlapping matches as replace(/\b(...)\b/gi, "") does. Fuel equals the
input length; every step consumes at least one character. -/
def stripAvailGo : Nat → Option Char → List Char → List Char
  | 0, _, l => l
  | fuel + 1, prev, l =>
    match l with
    | [] => []
    | c :: rest =>
      match matchAvailPhrase prev l with
      | some k => stripAvailGo fuel (l.get? (k - 1)) (l.drop k)
      | none => c :: stripAvailGo fuel (some c) rest

/-- Embeds replace(/[|:,-]+\s*$/, ""): drop a trailing run of separator
characters together with the whitespace after it, but only when at least
one separator character is present. -/
def stripTrailingSepBlock (l : List Char) : List Char :=
  let r := l.reverse
  let r1 := r.dropWhile isWsChar
  let r2 := r1.dropWhile (fun c => c = '|' || c = ':' || c = ',' || c = '-')
  if r2.length = r1.length then l else r2.reverse

/-- Embeds sanitizeVariantLabel of extract.ts on its string inputs
(non-string inputs are handled at the call sites, where they yield null). -/
def sanitizeVariantLabel (input : String) : Option String :=
  let collapsed := collapseWs input.data
  let stripped := stripAvailGo collapsed.length none collapsed
  let label := trimWs (stripTrailingSepBlock stripped)
  if label.length < 1 || label.length > 64 then none
  else if !(label.any isAlnumChar) then none
  else if ["select", "choose", "option", "size", "model", "variant"].contains
      (String.mk (lowerStr label)) then none
  else if String.mk (lowerStr label) = "default title" then none
  else some (String.mk label)

structure VariantStock where
  label : String
  inStock : Option Bool
  source : String
deriving DecidableEq, Repr

def stringifyStockValue : Option Bool → String
  | some true => "IN"
  | some false => "OUT"
  | none => "UNK"

/-- Embeds normalizeVariantStock: re-sanitize labels, deduplicate by the
(lowercased label, stock value) key keeping the first entry, cap at 8. -/
def normalizeVariantStock (input : List VariantStock) : List VariantStock :=
  (dedupeGo [] input).take 8
where
  dedupeGo (seen : List String) : List VariantStock → List VariantStock
    | [] => []
    | v :: rest =>
      match sanitizeVariantLabel v.label with
      | none => dedupeGo seen rest
      | some label =>
        let key := toLowerS label ++ "::" ++ stringifyStockValue v.inStock
        if seen.contains key then dedupeGo seen rest
        else ⟨label, v.inStock, v.source⟩ :: dedupeGo (key :: seen) rest

/-- Does l start with \s+ word \s+ followed by at least one character, the
shape of the truncation regexes of normalizeProductName (word compared
case-insensitively)? -/
def matchWsWordAt (word : List Char) (l : List Char) : Bool :=
  let ws1 := l.takeWhile isWsChar
  if ws1.isEmpty then false
  else
    let r1 := l.drop ws1.length
    if word.length ≤ r1.length && lowerStr (r1.take word.length) == word then
      let r2 := r1.drop word.length
      let ws2 := r2.takeWhile isWsChar
      !ws2.isEmpty && !(r2.drop ws2.length).isEmpty
    else false

def findWsWordIdx (word : List Char) : List Char → Option Nat
  | [] => none
  | c :: rest =>
    if matchWsWordAt word (c :: rest) then some 0
    else (findWsWordIdx word rest).map (· + 1)

/-- Embeds name.replace(/\s+word\s+.+$/i, ""): truncate at the leftmost
match. -/
def truncFromWord (word : List Char) (l : List Char) : List Char :=
  match findWsWordIdx word l with
  | some i => l.take i
  | none => l

/-- Does l start with a comma followed (after optional whitespace) by at
least one character, as in replace(/,\s*.+$/i, "")? -/
def matchCommaAt : List Char → Bool
  | ',' :: rest => !(rest.dropWhile isWsChar).isEmpty
  | _ => false

def findCommaIdx : List Char → Option Nat
  | [] => none
  | c :: rest =>
    if matchCommaAt (c :: rest) then some 0
    else (findCommaIdx rest).map (· + 1)

def truncFromComma (l : List Char) : List Char :=
  match findCommaIdx l with
  | some i => l.take i
  | none => l

/-- Embeds replace(/\bAir Purifiers\b/i, "Air Purifier"): replace the first
boundary-delimited case-insensitive occurrence only. -/
def replaceAirPurifiersGo (prev : Option Char) : List Char → List Char
  | [] => []
  | c :: rest =>
    let l := c :: rest
    let phrase := "air purifiers".data
    if phrase.length ≤ l.length
        && lowerStr (l.take phrase.length) == phrase
        && isBoundary prev (some c)
        && isBoundary (l.get? (phrase.length - 1)) (l.get? phrase.length) then
      "Air Purifier".data ++ l.drop phrase.length
    else c :: replaceAirPurifiersGo (some c) rest

/-- Searches the largest k with lo ≤ k ≤ hi satisfying pred, the order in
which a greedy run with a trailing \b backtracks. -/
def findLargestK (lo : Nat) (pred : Nat → Bool) : Nat → Option Nat
  | 0 => if lo = 0 && pred 0 then some 0 else none
  | h + 1 =>
    if h + 1 < lo then none
    else if pred (h + 1) then some (h + 1) else findLargestK lo pred h

/-- Character class [A-Z0-9-] under the /i flag of the Core model-hint
pattern. -/
def classCoreHint (c : Char) : Bool :=
  isAlnumChar c || c = '-'

/-- Character class [A-Z0-9-] of the case-sensitive model pattern. -/
def classModelTail (c : Char) : Bool :=
  isUpperChar c || isDigitChar c || c = '-'

/-- Matches \b(Core)\s+([A-Z0-9-]{3,})\b case-insensitively at the head of
l, returning the replacement text "m1 m2" (original case) and the consumed
length. -/
def matchCoreHintAt (prev : Option Char) (l : List Char) : Option (List Char × Nat) :=
  let w := "core".data
  if w.length ≤ l.length
      && lowerStr (l.take w.length) == w
      && isBoundary prev (l.head?) then
    let afterWord := l.drop w.length
    let ws := afterWord.takeWhile isWsChar
    if ws.isEmpty then none
    else
      let r := afterWord.drop ws.length
      let run := r.takeWhile classCoreHint
      match findLargestK 3 (fun k => isBoundary (r.get? (k - 1)) (r.get? k)) run.length with
      | some k =>
        some (l.take w.length ++ [' '] ++ r.take k, w.length + ws.length + k)
      | none => none
  else none

/-- Matches \b([A-Z]{1,}[0-9]{2,}[A-Z0-9-]*)\b case-sensitively at the head
of l. The end position backtracks from the greedy maximum down to two
digits, the order induced by the greedy quantifiers. -/
def matchModelAt (prev : Option Char) (l : List Char) : Option (List Char × Nat) :=
  let uppers := l.takeWhile isUpperChar
  if uppers.isEmpty || !(isBoundary prev (l.head?)) then none
  else
    let afterU := l.drop uppers.length
    let digits := afterU.takeWhile isDigitChar
    if digits.length < 2 then none
    else
      let afterD := afterU.drop digits.length
      let tail := afterD.takeWhile classModelTail
      let maxEnd := uppers.length + digits.length + tail.length
      match findLargestK (uppers.length + 2)
          (fun e => isBoundary (l.get? (e - 1)) (l.get? e)) maxEnd with
      | some e => some (l.take e, e)
      | none => none

/-- Scans l left to right collecting the non-overlapping global matches of
a pattern, continuing after each match, as a /g regex loop does. -/
def scanMatches (matchAt : Option Char → List Char → Option (List Char × Nat)) :
    Nat → Option Char → List Char → List (List Char)
  | 0, _, _ => []
  | fuel + 1, prev, l =>
    match l with
    | [] => []
    | c :: rest =>
      match matchAt prev l with
      | some (val, k) => val :: scanMatches matchAt fuel (l.get? (k - 1)) (l.drop k)
      | none => scanMatches matchAt fuel (some c) rest

/-- Embeds extractModelHint: the last match across both patterns wins (the
second pattern is iterated after the first, overwriting lastMatch). -/
def extractModelHint (input : String) : Option String :=
  let l := input.data
  let coreMatches := scanMatches matchCoreHintAt l.length none l
  let modelMatches := scanMatches matchModelAt l.length none l
  ((coreMatches ++ modelMatches).getLast?).map String.mk

/-- Embeds normalizeProductName of extract.ts. -/
def normalizeProductName (input : String) : String :=
  let name0 := trimWs (collapseWs input.data)
  if name0.isEmpty then "Unknown Product"
  else
    let model := extractModelHint (String.mk name0)
    let n1 := truncFromWord "with".data name0
    let n2 := truncFromWord "for".data n1
    let n3 := truncFromComma n2
    let n4 := trimWs (collapseWs n3)
    let n5 := trimWs (collapseWs (replaceAirPurifiersGo none n4))
    match model with
    | some m =>
      if !containsSub (lowerStr m.data) (lowerStr n5) then
        let normalizedModel :=
          if ['-', 'p'].isSuffixOf (lowerStr m.data) then
            m.data.take (m.data.length - 2)
          else m.data
        String.mk (trimWs (n5 ++ " - ".data ++ normalizedModel))
      else if n5.isEmpty then "Unknown Product" else String.mk n5
    | none => if n5.isEmpty then "Unknown Product" else String.mk n5

/-- JSON values as delivered to the adapters; JS numbers are exact
rationals in this model. -/
inductive Json where
  | null
  | bool (b : Bool)
  | num (q : ℚ)
  | str (s : String)
  | arr (items : List Json)
  | obj (fields : List (String × Json))

/-- Property access on a parsed JSON object; any other receiver yields
undefined. -/
def Json.getField : Json → String → Option Json
  | .obj fs, key => (fs.find? (fun p => p.1 == key)).map (fun p => p.2)
  | _, _ => none

/-- A JS nullish value (undefined or null), the values skipped by the ??
operator. -/
def jsNullish : Option Json → Bool
  | none => true
  | some .null => true
  | _ => false

def jsCoalesce (a b : Option Json) : Option Json :=
  if jsNullish a then b else a

/-- typeof v === "object" together with truthiness: objects and arrays
qualify, null does not. -/
def isObjectJson : Json → Bool
  | .obj _ => true
  | .arr _ => true
  | _ => false

/-- Embeds parseShopifyPriceCents of extract.ts. Number.isInteger
corresponds to denominator 1 of the exact rational. -/
def parseShopifyPriceCents (value : Option Json) (assumeIntegerIsCents : Bool) : Option ℤ :=
  match value with
  | some (.num q) =>
    if q.den = 1 && assumeIntegerIsCents then
      if 0 < q then some q.num else none
    else
      if 0 < q then some (jsRound (q * 100)) else none
  | some (.str s) =>
    let trimmed := trimWs s.data
    if trimmed.isEmpty then none
    else if trimmed.all isDigitChar then
      let parsed : ℤ := (digitsToNat trimmed : ℤ)
      if parsed ≤ 0 then none
      else if assumeIntegerIsCents then some parsed
      else some (parsed * 100)
    else (parsePriceFromText (String.mk trimmed)).map (fun p => p.priceCents)
  | _ => none

/-- Embeds parseShopifyAvailability of extract.ts. -/
def parseShopifyAvailability : Option Json → Option Bool
  | some (.bool b) => some b
  | some (.num q) => some (decide (0 < q))
  | some (.str s) =>
    let normalized := String.mk (lowerStr (trimWs s.data))
    if normalized = "" then none
    else if ["true", "1", "in_stock", "instock", "available"].contains normalized then
      some true
    else if ["false", "0", "out_of_stock", "outofstock", "unavailable", "sold_out"].contains
        normalized then
      some false
    else none
  | _ => none

/-- Embeds inStockFromState of extract.ts. -/
def inStockFromState : StockState → Option Bool
  | .OUT_OF_STOCK => some false
  | .IN_STOCK => some true
  | .PARTIAL => some true
  | .UNKNOWN => none

/-- Embeds normalizeInStockFromState of extract.ts. -/
def normalizeInStockFromState (inStock : Option Bool) : StockState → Option Bool
  | .IN_STOCK => some true
  | .PARTIAL => some true
  | .OUT_OF_STOCK => some false
  | .UNKNOWN => inStock

/-- Embeds inferStockStateFromVariants of extract.ts. -/
def inferStockStateFromVariants (variantInCount variantOutCount : Nat) : StockState :=
  if 0 < variantInCount ∧ 0 < variantOutCount then .PARTIAL
  else if 0 < variantInCount then .IN_STOCK
  else if 0 < variantOutCount then .OUT_OF_STOCK
  else .UNKNOWN

/-- Embeds normalizeAiStockState of extract.ts. -/
def normalizeAiStockState (state : StockState) (inStock : Option Bool)
    (variantStock : List VariantStock) : StockState :=
  let variantInCount := (variantStock.filter (fun v => v.inStock = some true)).length
  let variantOutCount := (variantStock.filter (fun v => v.inStock = some false)).length
  let variantState := inferStockStateFromVariants variantInCount variantOutCount
  if state ≠ .UNKNOWN then state
  else if variantState ≠ .UNKNOWN then variantState
  else match inStock with
    | some true => .IN_STOCK
    | some false => .OUT_OF_STOCK
    | none => .UNKNOWN

/-- Extraction result record; the evidence text and the sha256 content
hash of the source are not modelled (no claim concerns them). -/
structure ExtractResult where
  productName : String
  priceCents : Option ℤ
  inStock : Option Bool
  stockState : StockState
  variantStock : List VariantStock
  confidence : ℚ
  method : String
deriving Repr

/-- The stock-state upgrade inside extractFromShopifyPayload: a variant
state of UNKNOWN falls back to the product-level available flag. -/
def shopifyStockState (stockState0 : StockState) (productAvailable : Option Bool) :
    StockState :=
  if stockState0 = .UNKNOWN then
    match productAvailable with
    | some true => .IN_STOCK
    | some false => .OUT_OF_STOCK
    | none => stockState0
  else stockState0

/-- State of the per-variant fold inside extractFromShopifyPayload. -/
structure ShopifyVariantAcc where
  firstVariantPriceCents : Option ℤ
  firstAvailableVariantPriceCents : Option ℤ
  variantStockInput : List VariantStock

def shopifyVariantStep (assumeIntegerIsCents : Bool) (acc : ShopifyVariantAcc)
    (variant : Json) : ShopifyVariantAcc :=
  let priceCents := parseShopifyPriceCents (variant.getField "price") assumeIntegerIsCents
  let firstP :=
    if acc.firstVariantPriceCents.isNone && priceCents.isSome then priceCents
    else acc.firstVariantPriceCents
  let variantInStock := parseShopifyAvailability (variant.getField "available")
  let firstAvailP :=
    if variantInStock = some true && acc.firstAvailableVariantPriceCents.isNone
        && priceCents.isSome then priceCents
    else acc.firstAvailableVariantPriceCents
  let labelJson :=
    jsCoalesce (variant.getField "title")
      (jsCoalesce (variant.getField "name")
        (jsCoalesce (variant.getField "option1")
          (jsCoalesce (variant.getField "sku") (variant.getField "id"))))
  let label :=
    match labelJson with
    | some (.str s) => sanitizeVariantLabel s
    | _ => none
  match label, variantInStock with
  | some lab, some b =>
    ⟨firstP, firstAvailP, acc.variantStockInput ++ [⟨lab, some b, "shopify"⟩]⟩
  | _, _ => ⟨firstP, firstAvailP, acc.variantStockInput⟩

/-- Embeds extractFromShopifyPayload of extract.ts. Note the source
computes assumeIntegerIsCents with endpointUrl.toLowerCase().includes(".js"),
a check that is also satisfied by ".json" endpoints. -/
def extractFromShopifyPayload (payload : Json) (_sourceUrl : String)
    (endpointUrl : String) : Option ExtractResult :=
  if !isObjectJson payload then none
  else
    let productRecord :=
      match payload.getField "product" with
      | some p => if isObjectJson p then p else payload
      | none => payload
    let rawName :=
      match productRecord.getField "title" with
      | some (.str s) => String.mk (trimWs s.data)
      | _ => ""
    if rawName = "" then none
    else
      let assumeIntegerIsCents := containsSub ".js".data (lowerStr endpointUrl.data)
      let variants :=
        match productRecord.getField "variants" with
        | some (.arr vs) => vs.filter isObjectJson
        | _ => []
      let acc := variants.foldl (shopifyVariantStep assumeIntegerIsCents) ⟨none, none, []⟩
      let productLevelPrices :=
        [productRecord.getField "price", productRecord.getField "price_min",
         productRecord.getField "priceMin", productRecord.getField "min_variant_price",
         productRecord.getField "compare_at_price"].filterMap
          (fun j => parseShopifyPriceCents j assumeIntegerIsCents)
      let priceCents :=
        acc.firstAvailableVariantPriceCents <|> acc.firstVariantPriceCents
          <|> productLevelPrices.head?
      let normalizedVariants := normalizeVariantStock acc.variantStockInput
      let variantInCount := (normalizedVariants.filter (fun v => v.inStock = some true)).length
      let variantOutCount := (normalizedVariants.filter (fun v => v.inStock = some false)).length
      let productAvailable := parseShopifyAvailability (productRecord.getField "available")
      let stockState :=
        shopifyStockState (inferStockStateFromVariants variantInCount variantOutCount)
          productAvailable
      let inStock := inStockFromState stockState <|> productAvailable
      let confidence :=
        min (99 / 100 : ℚ)
          (84 / 100 + (if priceCents.isSome then 6 / 100 else 0)
            + (if stockState ≠ .UNKNOWN then 7 / 100 else 0)
            + (if 0 < normalizedVariants.length then 3 / 100 else 0))
      some ⟨normalizeProductName rawName, priceCents, inStock, stockState,
        normalizedVariants, confidence, "shopify_json"⟩

/-- Embeds parseBestBuyPriceCents of extract.ts. -/
def parseBestBuyPriceCents : Option Json → Option ℤ
  | some (.num q) => if 0 < q then some (jsRound (q * 100)) else none
  | some (.str s) => (parsePriceFromText s).map (fun p => p.priceCents)
  | _ => none

/-- Embeds normalizeBoolean of extract.ts. -/
def normalizeBoolean : Option Json → Option Bool
  | some (.bool b) => some b
  | some (.num q) => some (decide (0 < q))
  | some (.str s) =>
    let normalized := String.mk (lowerStr (trimWs s.data))
    if ["true", "1", "yes", "y"].contains normalized then some true
    else if ["false", "0", "no", "n"].contains normalized then some false
    else none
  | _ => none

/-- String(x ?? "").toLowerCase() for the availability fields; the payload
carries these as strings, so non-string coercion is collapsed to "". -/
def availStringLower : Option Json → List Char
  | some (.str s) => lowerStr s.data
  | _ => []

/-- Embeds extractFromBestBuyPayload of extract.ts. -/
def extractFromBestBuyPayload (payload : Json) (_sourceUrl : String)
    (_endpointUrl : String) : Option ExtractResult :=
  if !isObjectJson payload then none
  else
    let rawName :=
      match payload.getField "name" with
      | some (.str s) => String.mk (trimWs s.data)
      | _ => ""
    if rawName = "" then none
    else
      let priceCandidates :=
        [payload.getField "salePrice", payload.getField "regularPrice",
         payload.getField "price", payload.getField "currentPrice"]
      let priceCents := (priceCandidates.filterMap parseBestBuyPriceCents).head?
      let availObj := payload.getField "availability"
      let onlineAvailability :=
        availStringLower (availObj.bind (fun a => a.getField "onlineAvailability"))
      let isAvailableOnline :=
        normalizeBoolean
          (jsCoalesce (availObj.bind (fun a => a.getField "isAvailableOnline"))
            (payload.getField "isAvailableOnline"))
      let inStoreAvailability :=
        availStringLower (availObj.bind (fun a => a.getField "inStoreAvailability"))
      let stockState : StockState :=
        if containsSub "instock".data onlineAvailability || isAvailableOnline = some true then
          .IN_STOCK
        else if containsSub "outofstock".data onlineAvailability
            || containsSub "soldout".data onlineAvailability
            || containsSub "backorder".data onlineAvailability
            || isAvailableOnline = some false then
          .OUT_OF_STOCK
        else if containsSub "available".data inStoreAvailability then .IN_STOCK
        else .UNKNOWN
      some ⟨normalizeProductName rawName, priceCents, inStockFromState stockState,
        stockState, [], 96 / 100, "static"⟩

/-- Option record of inferStockStateFromScores. -/
structure StockScoreOptions where
  hasExplicitOutAvailability : Bool
  hasExplicitInAvailability : Bool
  enabledPurchaseCtaCount : Nat
  embeddedOutCount : Nat
  embeddedInCount : Nat

/-- Embeds inferStockStateFromScores of extract.ts, with the precedence
rules in source order. -/
def inferStockStateFromScores (inScore outScore : ℚ) (options : StockScoreOptions) :
    StockState :=
  if options.hasExplicitInAvailability ∧ ¬options.hasExplicitOutAvailability then
    .IN_STOCK
  else if options.hasExplicitOutAvailability ∧ ¬options.hasExplicitInAvailability
      ∧ options.enabledPurchaseCtaCount = 0 then
    .OUT_OF_STOCK
  else if 0 < options.embeddedOutCount ∧ options.embeddedInCount = 0
      ∧ options.enabledPurchaseCtaCount = 0 then
    .OUT_OF_STOCK
  else if 0 < options.enabledPurchaseCtaCount ∧ outScore - 2 ≤ inScore then
    .IN_STOCK
  else if inScore + 3 ≤ outScore ∧ 3 ≤ outScore then
    .OUT_OF_STOCK
  else if outScore + 2 ≤ inScore ∧ 2 ≤ inScore then
    .IN_STOCK
  else .UNKNOWN

/-- The final stockState expression of detectStockStatus (extract.ts lines
1309 to 1314), merging the page-level state with the variant-derived
state. -/
def detectStockStatusMerge (pageState variantState : StockState) : StockState :=
  if variantState = .UNKNOWN then pageState
  else if pageState = .UNKNOWN ∨ pageState = variantState then variantState
  else .PARTIAL

/-- The pair of stock fields detectStockStatus returns: inStock is the
projection of the merged stockState. -/
def detectStockStatusResult (pageState : StockState) (variantInCount variantOutCount : Nat) :
    Option Bool × StockState :=
  let stockState :=
    detectStockStatusMerge pageState (inferStockStateFromVariants variantInCount variantOutCount)
  (inStockFromState stockState, stockState)

/-- Candidate record of extract.ts; priceCents is number | null | undefined
there, flattened to one Option here with a flag distinguishing an explicit
null from an absent field where truthiness is concerned (both are falsy, so
a single Option is faithful). -/
structure Candidate where
  productName : Option String
  priceCents : Option ℤ
  confidence : ℚ
  source : String
  candidateText : String
deriving Repr

/-- JS truthiness of candidate.productName: a present, non-empty string. -/
def candidateHasName (c : Candidate) : Bool :=
  match c.productName with
  | some s => s ≠ ""
  | none => false

/-- JS truthiness of candidate.priceCents: a present, non-zero number. -/
def candidateHasPrice (c : Candidate) : Bool :=
  match c.priceCents with
  | some p => p ≠ 0
  | none => false

/-- The score adjustment applied to every candidate inside
chooseBestCandidate: +0.05 per carried name and price, capped at 0.99. -/
def adjustCandidate (c : Candidate) : Candidate :=
  let score := c.confidence
    + (if candidateHasName c then 5 / 100 else 0)
    + (if candidateHasPrice c then 5 / 100 else 0)
  { c with confidence := min score (99 / 100) }

/-- The descending-confidence relation of the sort comparator
(a, b) => b.confidence - a.confidence. -/
def confGe (a b : Candidate) : Prop :=
  b.confidence ≤ a.confidence

instance : DecidableRel confGe :=
  fun a b => inferInstanceAs (Decidable (b.confidence ≤ a.confidence))

instance : IsTotal Candidate confGe :=
  ⟨fun a b => (le_total b.confidence a.confidence).imp id id⟩

instance : IsTrans Candidate confGe :=
  ⟨fun _ _ _ hab hbc => le_trans hbc hab⟩

/-- Stable descending sort by confidence, the model of the stable JS
Array.prototype.sort with that comparator. -/
def sortByConfDesc (l : List Candidate) : List Candidate :=
  List.insertionSort confGe l

/-- The ambiguity-penalty condition of chooseBestCandidate: the runner-up
carries a numeric price that differs from the top's and trails by strictly
less than 0.05. -/
def ambiguityPenaltyCond (top : Candidate) (second : Option Candidate) : Bool :=
  match second with
  | some s =>
    s.priceCents.isSome && top.priceCents.isSome && top.priceCents ≠ s.priceCents
      && top.confidence - 5 / 100 < s.confidence
  | none => false

def noneCandidate : Candidate :=
  ⟨none, none, 0, "none", "none"⟩

/-- Embeds chooseBestCandidate of extract.ts. -/
def chooseBestCandidate (candidates : List Candidate) : Candidate :=
  if candidates.isEmpty then noneCandidate
  else
    match sortByConfDesc (candidates.map adjustCandidate) with
    | [] => noneCandidate
    | top :: rest =>
      if ambiguityPenaltyCond top rest.head? then
        { top with confidence := max (1 / 2) (top.confidence - 1 / 10) }
      else top

/-- Embeds didPriceChange of check-service.ts; the nullable-or-undefined
price columns are flattened to Option. -/
def didPriceChange (previousPriceCents currentPriceCents : Option ℤ) : Bool :=
  match previousPriceCents, currentPriceCents with
  | some prev, some curr => prev ≠ curr
  | _, _ => false

/-- The snapshot columns runCheckForItem reads and writes. -/
structure Snapshot where
  priceCents : Option ℤ
  inStock : Option Bool
deriving Repr

/-- The extraction attempt as consumed by runCheckForItem. -/
structure ExtractionAttempt where
  success : Bool
  result : Option ExtractResult
  reason : Option String

/-- The reason substrings that map a failed extraction to NEEDS_REVIEW. -/
def needsReviewReason (reason : Option String) : Bool :=
  match reason with
  | none => false
  | some r =>
    containsSub "AI_BUDGET".data r.data || containsSub "LOW_CONFIDENCE".data r.data
      || containsSub "REGIONAL_REDIRECT".data r.data
      || containsSub "REDIRECT_BLOCKED".data r.data

inductive RunStatus where
  | SUCCESS
  | FAILED
  | NEEDS_REVIEW
deriving DecidableEq, Repr

/-- Observable outcome of one runCheckForItem invocation after the
extractor returned: final CheckRun status, how many PriceSnapshot rows were
created, the changed flag, and which notification dispatches were
invoked. -/
structure RunOutcome where
  status : RunStatus
  snapshotsCreated : Nat
  changed : Bool
  priceChangeDispatched : Bool
  backInStockDispatched : Bool
deriving Repr

/-- Embeds the body of runCheckForItem of check-service.ts from the point
where the extraction attempt is available: the non-success branch
finalizes the run without a snapshot; the success branch creates exactly
one snapshot, computes the change flag against the latest prior snapshot,
and dispatches the two notification kinds under their respective
conditions. -/
def runCheckModel (extraction : ExtractionAttempt) (latestSnapshot : Option Snapshot) :
    RunOutcome :=
  match extraction.success, extraction.result with
  | true, some result =>
      let snapshot : Snapshot := ⟨result.priceCents, result.inStock⟩
      let changed := didPriceChange (latestSnapshot.bind (fun s => s.priceCents))
        snapshot.priceCents
      let priceChangeDispatched := changed && latestSnapshot.isSome
        && (latestSnapshot.bind (fun s => s.priceCents)).isSome && snapshot.priceCents.isSome
      let backInStockDispatched :=
        (latestSnapshot.map (fun s => s.inStock)) = some (some false)
          && snapshot.inStock = some true
      ⟨.SUCCESS, 1, changed, priceChangeDispatched, backInStockDispatched⟩
  | _, _ =>
      let needsReview := needsReviewReason extraction.reason
      ⟨if needsReview then .NEEDS_REVIEW else .FAILED, 0, false, false, false⟩

/-- Notification event types. -/
inductive EventType where
  | PRICE_CHANGED
  | BACK_IN_STOCK
deriving DecidableEq, Repr

/-- The composite key of the Notification table. -/
structure NotifKey where
  itemId : String
  snapshotId : String
  eventType : EventType
deriving DecidableEq, Repr

/-- Modelled from the spec: the Notification table with its unique
composite key (itemId, snapshotId, eventType) lives in the Prisma schema,
which is not part of the extracted sources; per the spec the unique key
makes a second insert for the same key fail with a unique-constraint
violation (Prisma error P2002). The state records the claimed keys and the
log of webhook POSTs performed. -/
structure NotifState where
  claimed : List NotifKey
  posts : List NotifKey

/-- Embeds sendPriceChangeNotification / sendBackInStockNotification of
check-service.ts (both have the identical claim-then-send structure): first
insert the Notification row; a unique-violation insert returns silently
with no POST and no further update; only after a fresh claim is the
webhook POST performed, and only when a webhook URL is configured. -/
def dispatchNotification (webhookUrl : Option String) (key : NotifKey)
    (st : NotifState) : NotifState :=
  if key ∈ st.claimed then st
  else
    let claimedSt : NotifState := ⟨key :: st.claimed, st.posts⟩
    match webhookUrl with
    | none => claimedSt
    | some _ => ⟨claimedSt.claimed, key :: claimedSt.posts⟩

/-- Runs a sequence of dispatch attempts (each with its own webhook-URL
configuration and key) against the notification state. -/
def runDispatches (calls : List (Option String × NotifKey)) (st : NotifState) : NotifState :=
  calls.foldl (fun s c => dispatchNotification c.1 c.2 s) st

def countPosts (key : NotifKey) (st : NotifState) : Nat :=
  (st.posts.filter (fun k => k = key)).length

def splitAtFirst (ch : Char) : List Char → List Char × Option (List Char)
  | [] => ([], none)
  | c :: rest =>
    if c = ch then ([], some rest)
    else (c :: (splitAtFirst ch rest).1, (splitAtFirst ch rest).2)

def isAlphaChar (c : Char) : Bool :=
  ('a' ≤ c && c ≤ 'z') || ('A' ≤ c && c ≤ 'Z')

/-- Scheme characters accepted by the URL parser: [A-Za-z0-9+.-]. -/
def isSchemeChar (c : Char) : Bool :=
  isAlnumChar c || c = '+' || c = '-' || c = '.'

def hexDigitChar (n : Nat) : Char :=
  if n < 10 then Char.ofNat ('0'.toNat + n) else Char.ofNat ('a'.toNat + (n - 10))

def hexVal (c : Char) : Option Nat :=
  let n := c.toNat
  if 48 ≤ n && n ≤ 57 then some (n - 48)
  else if 97 ≤ n && n ≤ 102 then some (n - 87)
  else if 65 ≤ n && n ≤ 70 then some (n - 55)
  else none

/-- Percent-encoding of one query character. Alphanumerics pass through,
other single-byte characters become %hh escapes, and characters above the
byte range pass through opaquely. The escape set is a model of the
application/x-www-form-urlencoded serializer: its mechanism (reserved
characters never appear raw, decoding inverts encoding) is what the
normalizer relies on. -/
def encodeParamChar (c : Char) : List Char :=
  if isAlnumChar c then [c]
  else if c.toNat < 256 then ['%', hexDigitChar (c.toNat / 16), hexDigitChar (c.toNat % 16)]
  else [c]

def encodeParam (l : List Char) : List Char :=
  (l.map encodeParamChar).flatten

/-- Query percent-decoding: %hh escapes become the denoted byte, '+'
becomes a space, malformed escapes pass through, as URLSearchParams
does. -/
def decodeParam : List Char → List Char
  | [] => []
  | '%' :: h1 :: h2 :: rest =>
    match hexVal h1, hexVal h2 with
    | some a, some b => Char.ofNat (16 * a + b) :: decodeParam rest
    | _, _ => '%' :: decodeParam (h1 :: h2 :: rest)
  | '+' :: rest => ' ' :: decodeParam rest
  | c :: rest => c :: decodeParam rest

/-- Splits a query string at every ampersand. -/
def piecesOnAmp : List Char → List (List Char)
  | [] => [[]]
  | c :: rest =>
    if c = '&' then [] :: piecesOnAmp rest
    else
      match piecesOnAmp rest with
      | p :: ps => (c :: p) :: ps
      | [] => [[c]]

def parseQueryPiece (piece : List Char) : List Char × List Char :=
  match splitAtFirst '=' piece with
  | (k, none) => (decodeParam k, [])
  | (k, some v) => (decodeParam k, decodeParam v)

/-- URLSearchParams view of a query string: nonempty &-separated pieces,
each split at the first '=' and percent-decoded. -/
def parseQuery (q : List Char) : List (List Char × List Char) :=
  ((piecesOnAmp q).filter (fun p => !p.isEmpty)).map parseQueryPiece

/-- Structural model of a parsed WHATWG URL as url.ts manipulates it: the
authority is kept opaque in host, the path is the raw serialized path, the
query is the decoded parameter list, the fragment is the raw text after
'#' (empty meaning absent). -/
structure UrlParts where
  scheme : List Char
  host : List Char
  path : List Char
  params : List (List Char × List Char)
  fragment : List Char
deriving DecidableEq, Repr

/-- Model of the WHATWG URL parser for hierarchical http-style URLs: a
valid scheme before ':', a mandatory '//', the authority up to the first
'/', '?' or '#', then path, query and fragment. Scheme and host are
lowercased as the platform parser does; inputs the class would reject
yield none, matching new URL(...) throwing. -/
def parseUrl (l : List Char) : Option UrlParts :=
  match splitAtFirst ':' l with
  | (schemeRaw, some rest) =>
    if schemeRaw.isEmpty || !(schemeRaw.all isSchemeChar) then none
    else
      match schemeRaw.head? with
      | some c0 =>
        if !isAlphaChar c0 then none
        else
          match rest with
          | '/' :: '/' :: rest2 =>
            let host := rest2.takeWhile (fun c => c ≠ '/' && c ≠ '?' && c ≠ '#')
            let afterHost := rest2.drop host.length
            let (beforeFrag, fragOpt) := splitAtFirst '#' afterHost
            let (rawPath, queryOpt) := splitAtFirst '?' beforeFrag
            let path := if rawPath.isEmpty then ['/'] else rawPath
            some ⟨lowerStr schemeRaw, lowerStr host, path,
              parseQuery (queryOpt.getD []), fragOpt.getD []⟩
          | _ => none
      | none => none
  | (_, none) => none

def serializeParam (kv : List Char × List Char) : List Char :=
  encodeParam kv.1 ++ '=' :: encodeParam kv.2

def joinAmp : List (List Char) → List Char
  | [] => []
  | [p] => p
  | p :: ps => p ++ '&' :: joinAmp ps

/-- Model of the WHATWG URL serializer on the structural view. -/
def serializeUrl (u : UrlParts) : List Char :=
  u.scheme ++ ':' :: '/' :: '/' :: u.host ++ u.path
    ++ (if u.params.isEmpty then [] else '?' :: joinAmp (u.params.map serializeParam))
    ++ (if u.fragment.isEmpty then [] else '#' :: u.fragment)

/-- The tracking-parameter name heads stripped by url.ts. -/
def trackingParamPrefixList : List (List Char) :=
  ["utm_".data, "fbclid".data, "gclid".data, "msclkid".data, "ref".data,
   "ref_".data, "source".data]

def isTrackingKey (k : List Char) : Bool :=
  trackingParamPrefixList.any (fun p => p.isPrefixOf (lowerStr k))

/-- Total lexicographic order on parameter names, the model of the
localeCompare comparator. -/
def keyLe : List Char → List Char → Bool
  | [], _ => true
  | _ :: _, [] => false
  | c :: cs, d :: ds =>
    if c.toNat < d.toNat then true
    else if d.toNat < c.toNat then false
    else keyLe cs ds

/-- The parameter-name order as a relation on (name, value) pairs. -/
def paramLe (a b : List Char × List Char) : Prop :=
  keyLe a.1 b.1 = true

instance : DecidableRel paramLe :=
  fun a b => inferInstanceAs (Decidable (keyLe a.1 b.1 = true))

/-- Stable sort of the parameter list by name: equal names keep their
original value order, as the stable JS sort with localeCompare does. -/
def sortParams (ps : List (List Char × List Char)) : List (List Char × List Char) :=
  List.insertionSort paramLe ps

/-- Embeds the trailing-slash rule of url.ts: strip one trailing slash
when the path is longer than one character. -/
def stripTrailingSlashPath (p : List Char) : List Char :=
  if 1 < p.length ∧ p.getLast? = some '/' then p.dropLast else p

/-- The normalization url.ts performs on the parsed URL: drop the
fragment, delete tracking parameters, sort the remainder stably by name,
strip a single trailing path slash. -/
def normalizeUrlParts (u : UrlParts) : UrlParts :=
  ⟨u.scheme, u.host, stripTrailingSlashPath u.path,
    sortParams (u.params.filter (fun kv => !isTrackingKey kv.1)), []⟩

/-- Embeds normalizeTrackedUrl of url.ts; none models the URL constructor
throwing on unparsable input. -/
def normalizeTrackedUrl (input : String) : Option String :=
  (parseUrl input.data).map (fun u => String.mk (serializeUrl (normalizeUrlParts u)))

/-- The projection invariant between the nullable inStock flag and the
stockState of an extraction result. -/
def stockProjectionInvariant (inStock : Option Bool) (state : StockState) : Prop :=
  (inStock = some true ↔ state = .IN_STOCK ∨ state = .PARTIAL) ∧
  (inStock = some false ↔ state = .OUT_OF_STOCK) ∧
  (inStock = none ↔ state = .UNKNOWN)

instance (inStock : Option Bool) (state : StockState) :
    Decidable (stockProjectionInvariant inStock state) :=
  inferInstanceAs (Decidable (_ ∧ _ ∧ _))

/-- A Shopify product payload whose variant price is the JSON integer 42. -/
def shopifyIntegerPricePayload : Json :=
  .obj [("title", .str "Widget"),
        ("variants", .arr [.obj [("title", .str "V1"), ("price", .num 42),
          ("available", .bool true)]])]

/-- A minimal Shopify payload used to instantiate the projection
invariant. -/
def shopifyAvailablePayload : Json :=
  .obj [("title", .str "Widget"), ("available", .bool true)]

/-- Does a path end in two consecutive slashes? The single-slash strip of
the normalizer is not idempotent exactly on such paths. -/
def pathEndsDoubleSlash (p : List Char) : Bool :=
  ['/', '/'].isSuffixOf p

/-- The shape invariants of a parsed URL that make the serializer and the
parser mutually inverse: a lowercase alphabetic scheme of scheme
characters, a host free of the authority delimiters, already lowercased,
and a slash-led path free of the query and fragment delimiters. -/
def wellFormedParts (u : UrlParts) : Prop :=
  u.scheme ≠ [] ∧ u.scheme.all isSchemeChar = true ∧
  (∀ c0 cs, u.scheme = c0 :: cs → isAlphaChar c0 = true) ∧
  lowerStr u.scheme = u.scheme ∧
  (∀ c ∈ u.host, c ≠ '/' ∧ c ≠ '?' ∧ c ≠ '#') ∧
  lowerStr u.host = u.host ∧
  (∃ q, u.path = '/' :: q) ∧
  (∀ c ∈ u.path, c ≠ '?' ∧ c ≠ '#')

/-- The successful extraction of the back-in-stock scenario: in stock at
14999 cents. -/
def backInStockResult : ExtractResult :=
  ⟨"Widget", some 14999, some true, .IN_STOCK, [], 9 / 10, "static"⟩

/-- A prior snapshot that was out of stock with no recorded price. -/
def priorOutSnapshot : Snapshot :=
  ⟨none, some false⟩

def testNotifKey : NotifKey :=
  ⟨"item-1", "snap-1", .BACK_IN_STOCK⟩

def testClaimedState : NotifState :=
  ⟨[testNotifKey], []⟩

def testNotifCalls : List (Option String × NotifKey) :=
  [(some "https://discord.example/webhook", testNotifKey),
   (some "https://discord.example/webhook", testNotifKey),
   (none, testNotifKey)]

def jsonLdCandidate : Candidate :=
  ⟨some "Widget Pro", some 4999, 95 / 100, "jsonld", "Widget Pro 49.99"⟩

def metaCandidate : Candidate :=
  ⟨some "Widget Pro", some 5999, 82 / 100, "meta", "Widget Pro 59.99"⟩

/-- A Best Buy payload carrying only a product name. -/
def bestBuyNamePayload : Json :=
  .obj [("name", .str "Gadget")]

/-! ## Theorems -/

/-- C1: the claim states that extractFromShopifyPayload interprets JSON
integer prices as cents for the .js endpoint and as whole-currency units
(multiplied by 100) for the .json endpoint. The code computes
assumeIntegerIsCents with endpointUrl.toLowerCase().includes(".js"), and
".json" contains ".js", so the integer 42 reaching the .json endpoint is
returned as 42 cents rather than 4200: the multiply-by-100 branch for
integers is dead for every endpoint the Shopify prober generates. This
theorem evaluates the embedded code at the failing input (and, for
contrast, at the .js endpoint where the claim does hold). -/
theorem shopify_integer_price_json_endpoint_eval :
    (extractFromShopifyPayload shopifyIntegerPricePayload
        "https://shop.example.com/products/widget"
        "https://shop.example.com/products/widget.json").map ExtractResult.priceCents
      = some (some 42) ∧
    (extractFromShopifyPayload shopifyIntegerPricePayload
        "https://shop.example.com/products/widget"
        "https://shop.example.com/products/widget.js").map ExtractResult.priceCents
      = some (some 42) ∧
    (42 : ℤ) ≠ 42 * 100 := by
  refine ⟨by decide, by decide, by decide⟩

/-- C2 counterexample: with one known-in variant, no known-out variant,
and a page-level state of OUT_OF_STOCK (both states known and
disagreeing), the merge of detectStockStatus yields PARTIAL, not the
page-level state OUT_OF_STOCK that the claim asserts. -/
theorem stock_merge_disagreement_counterexample :
    detectStockStatusMerge .OUT_OF_STOCK (inferStockStateFromVariants 1 0) = .PARTIAL ∧
    detectStockStatusMerge .OUT_OF_STOCK (inferStockStateFromVariants 1 0)
      ≠ .OUT_OF_STOCK := by
  decide

/-- C2 (amended): if some variants are known-in and some known-out the
final stockState is PARTIAL regardless of the page-level state; when the
variant-derived state and the page-level state are both known and
disagree, the final stockState is PARTIAL (not the page-level state); when
the page state is UNKNOWN the variant state is used; and when the variant
state is UNKNOWN the page state is used. -/
theorem final_stock_merge_spec (pageState variantState : StockState) (vin vout : Nat) :
    (0 < vin ∧ 0 < vout →
      detectStockStatusMerge pageState (inferStockStateFromVariants vin vout) = .PARTIAL) ∧
    (variantState ≠ .UNKNOWN → pageState ≠ .UNKNOWN → pageState ≠ variantState →
      detectStockStatusMerge pageState variantState = .PARTIAL) ∧
    (variantState ≠ .UNKNOWN → pageState = .UNKNOWN →
      detectStockStatusMerge pageState variantState = variantState) ∧
    (detectStockStatusMerge pageState .UNKNOWN = pageState) := by
  refine ⟨?_, ?_, ?_, ?_⟩
  · intro h
    have hv : inferStockStateFromVariants vin vout = .PARTIAL := by
      unfold inferStockStateFromVariants
      rw [if_pos h]
    rw [hv]
    cases pageState <;> decide
  · intro h1 h2 h3
    cases pageState <;> cases variantState <;> simp_all <;> decide
  · intro h1 h2
    subst h2
    cases variantState <;> simp_all <;> decide
  · cases pageState <;> decide

/-- C2 witness: the amended merge rules applied at concrete inputs. -/
theorem final_stock_merge_spec_witness :
    detectStockStatusMerge .OUT_OF_STOCK (inferStockStateFromVariants 2 1) = .PARTIAL ∧
    detectStockStatusMerge .OUT_OF_STOCK .IN_STOCK = .PARTIAL ∧
    detectStockStatusMerge .UNKNOWN .IN_STOCK = .IN_STOCK :=
  ⟨(final_stock_merge_spec .OUT_OF_STOCK .IN_STOCK 2 1).1 ⟨by decide, by decide⟩,
   (final_stock_merge_spec .OUT_OF_STOCK .IN_STOCK 2 1).2.1 (by decide) (by decide) (by decide),
   (final_stock_merge_spec .UNKNOWN .IN_STOCK 2 1).2.2.1 (by decide) rfl⟩

/-- C6: when no explicit schema.org availability signal fired and the
embedded-out-with-no-embedded-in rule cannot fire (an enabled CTA is
present), an enabled purchase CTA together with inScore at least
outScore - 2 forces IN_STOCK. -/
theorem enabled_cta_overrides_out_text (inScore outScore : ℚ) (opts : StockScoreOptions)
    (hNoExplicitIn : opts.hasExplicitInAvailability = false)
    (hNoExplicitOut : opts.hasExplicitOutAvailability = false)
    (hCta : 0 < opts.enabledPurchaseCtaCount)
    (hScore : outScore - 2 ≤ inScore) :
    inferStockStateFromScores inScore outScore opts = .IN_STOCK := by
  have hCta' : opts.enabledPurchaseCtaCount ≠ 0 := Nat.pos_iff_ne_zero.mp hCta
  unfold inferStockStateFromScores
  simp [hNoExplicitIn, hNoExplicitOut, hCta', hCta, hScore]

/-- C6 witness: the scores induced by a page with two enabled add-to-cart
buttons (CTA group 3 + 2, two in-pattern text hits 2 × 2.1) and the
"currently unavailable" out-patterns (1.4 + 0.5) yield IN_STOCK. -/
theorem enabled_cta_overrides_out_text_witness :
    inferStockStateFromScores (92 / 10) (19 / 10)
      ⟨false, false, 2, 0, 0⟩ = .IN_STOCK :=
  enabled_cta_overrides_out_text (92 / 10) (19 / 10) ⟨false, false, 2, 0, 0⟩
    rfl rfl (by decide) (by norm_num)

/-- C3: on a successful extraction, changed is true exactly when a prior
snapshot exists, both its price and the new price are numbers, and they
differ; a BACK_IN_STOCK dispatch happens exactly when the prior inStock is
exactly false and the new one exactly true; and with a null prior price no
PRICE_CHANGED dispatch happens (even though a BACK_IN_STOCK one may). -/
theorem run_check_change_and_notifications (extraction : ExtractionAttempt)
    (result : ExtractResult) (latestSnapshot : Option Snapshot)
    (hSuccess : extraction.success = true) (hResult : extraction.result = some result) :
    ((runCheckModel extraction latestSnapshot).changed = true ↔
      ∃ s prev curr, latestSnapshot = some s ∧ s.priceCents = some prev ∧
        result.priceCents = some curr ∧ prev ≠ curr) ∧
    ((runCheckModel extraction latestSnapshot).backInStockDispatched = true ↔
      ∃ s, latestSnapshot = some s ∧ s.inStock = some false ∧
        result.inStock = some true) ∧
    (∀ s, latestSnapshot = some s → s.priceCents = none →
      (runCheckModel extraction latestSnapshot).priceChangeDispatched = false) := by
  rcases extraction with ⟨se, re, reason⟩
  simp only at hSuccess hResult
  subst hSuccess
  subst hResult
  refine ⟨?_, ?_, ?_⟩
  · rcases latestSnapshot with _ | ⟨pc, istk⟩
    · simp [runCheckModel, didPriceChange]
    · rcases pc with _ | prev <;> rcases hc : result.priceCents with _ | curr <;>
        simp [runCheckModel, didPriceChange, hc]
  · rcases latestSnapshot with _ | ⟨pc, istk⟩
    · simp [runCheckModel]
    · rcases istk with _ | b
      · simp [runCheckModel]
      · cases b <;> simp [runCheckModel]
  · intro s hs hn
    subst hs
    rcases s with ⟨pc, istk⟩
    simp only at hn
    subst hn
    simp [runCheckModel, didPriceChange]

/-- C3 witness: prior snapshot out of stock with null price, new result in
stock at 14999 cents: BACK_IN_STOCK is dispatched and PRICE_CHANGED is
not. -/
theorem run_check_change_and_notifications_witness :
    (runCheckModel ⟨true, some backInStockResult, none⟩
        (some priorOutSnapshot)).backInStockDispatched = true ∧
    (runCheckModel ⟨true, some backInStockResult, none⟩
        (some priorOutSnapshot)).priceChangeDispatched = false :=
  ⟨(run_check_change_and_notifications ⟨true, some backInStockResult, none⟩
      backInStockResult (some priorOutSnapshot) rfl rfl).2.1.mpr
      ⟨priorOutSnapshot, rfl, rfl, rfl⟩,
   (run_check_change_and_notifications ⟨true, some backInStockResult, none⟩
      backInStockResult (some priorOutSnapshot) rfl rfl).2.2 priorOutSnapshot rfl rfl⟩

/-- C5: a PriceSnapshot is created exactly once when the extraction
succeeds and never otherwise; on a non-success the run is finalized
NEEDS_REVIEW exactly when the reason contains one of AI_BUDGET,
LOW_CONFIDENCE, REGIONAL_REDIRECT or REDIRECT_BLOCKED, and FAILED
otherwise. The well-formedness hypothesis records that the extractor
always attaches a result to a success status. -/
theorem run_check_status_spec (extraction : ExtractionAttempt)
    (latestSnapshot : Option Snapshot)
    (hwf : extraction.success = true → extraction.result.isSome = true) :
    ((runCheckModel extraction latestSnapshot).snapshotsCreated = 1 ↔
      extraction.success = true) ∧
    (extraction.success = false →
      (runCheckModel extraction latestSnapshot).snapshotsCreated = 0 ∧
      ((runCheckModel extraction latestSnapshot).status = .NEEDS_REVIEW ↔
        ∃ r, extraction.reason = some r ∧
          (containsSub "AI_BUDGET".data r.data = true ∨
           containsSub "LOW_CONFIDENCE".data r.data = true ∨
           containsSub "REGIONAL_REDIRECT".data r.data = true ∨
           containsSub "REDIRECT_BLOCKED".data r.data = true)) ∧
      ((runCheckModel extraction latestSnapshot).status = .NEEDS_REVIEW ∨
        (runCheckModel extraction latestSnapshot).status = .FAILED)) := by
  rcases extraction with ⟨se, re, reason⟩
  cases se
  · refine ⟨?_, ?_⟩
    · cases re <;>
        · constructor
          · intro h
            simp only [runCheckModel] at h
            exact absurd h (by decide)
          · intro h
            exact absurd h (by simp)
    · intro _
      have hstat : ∀ o : Option ExtractResult, ∀ rs : Option String,
          (runCheckModel ⟨false, o, rs⟩ latestSnapshot).snapshotsCreated = 0 ∧
          (runCheckModel ⟨false, o, rs⟩ latestSnapshot).status =
            (if needsReviewReason rs then RunStatus.NEEDS_REVIEW else RunStatus.FAILED) := by
        intro o rs
        cases o <;> simp [runCheckModel]
      refine ⟨(hstat re reason).1, ?_, ?_⟩
      · rw [(hstat re reason).2]
        rcases reason with _ | r
        · simp [needsReviewReason]
        · by_cases h : needsReviewReason (some r) = true
          · rw [if_pos h]
            simp only [needsReviewReason, Bool.or_eq_true] at h
            simp only [true_iff]
            exact ⟨r, rfl, by tauto⟩
          · rw [if_neg h]
            simp only [needsReviewReason, Bool.or_eq_true] at h
            constructor
            · intro hc
              exact absurd hc (by simp)
            · rintro ⟨r', hr', hc⟩
              injection hr' with hr'
              subst hr'
              exact absurd (by tauto) h
      · rw [(hstat re reason).2]
        by_cases h : needsReviewReason reason = true
        · rw [if_pos h]; left; rfl
        · rw [if_neg h]; right; rfl
  · have hre := hwf rfl
    rcases re with _ | r
    · simp at hre
    · refine ⟨?_, ?_⟩
      · simp [runCheckModel]
      · intro h
        exact absurd h (by simp)

/-- C5 witness: a non-success attempt with reason
AI_BUDGET_EXCEEDED_OR_DISABLED creates no snapshot and finalizes
NEEDS_REVIEW; a successful attempt creates exactly one snapshot. -/
theorem run_check_status_spec_witness :
    (runCheckModel ⟨false, none, some "AI_BUDGET_EXCEEDED_OR_DISABLED"⟩ none).snapshotsCreated
        = 0 ∧
    (runCheckModel ⟨false, none, some "AI_BUDGET_EXCEEDED_OR_DISABLED"⟩ none).status
        = .NEEDS_REVIEW ∧
    (runCheckModel ⟨true, some backInStockResult, none⟩ none).snapshotsCreated = 1 := by
  have hfail := (run_check_status_spec ⟨false, none, some "AI_BUDGET_EXCEEDED_OR_DISABLED"⟩
    none (by intro h; exact absurd h (by decide))).2 rfl
  have hsucc := (run_check_status_spec ⟨true, some backInStockResult, none⟩
    none (by intro _; rfl)).1
  exact ⟨hfail.1, hfail.2.1.mpr ⟨"AI_BUDGET_EXCEEDED_OR_DISABLED", rfl, Or.inl (by decide)⟩,
    hsucc.mpr rfl⟩

theorem countPosts_push (key k : NotifKey) (claimed posts : List NotifKey) :
    countPosts key ⟨claimed, k :: posts⟩
      = (if k = key then 1 else 0) + countPosts key ⟨claimed, posts⟩ := by
  by_cases h : k = key
  · simp [countPosts, List.filter, h]
    omega
  · simp [countPosts, List.filter, h]

/-- One dispatch preserves the at-most-once invariant for any fixed key:
the post count stays at most one, and an unclaimed key has no posts. -/
theorem dispatch_preserves_bound (key : NotifKey) (webhookUrl : Option String)
    (k : NotifKey) (st : NotifState)
    (h1 : countPosts key st ≤ 1)
    (h2 : key ∉ st.claimed → countPosts key st = 0) :
    countPosts key (dispatchNotification webhookUrl k st) ≤ 1 ∧
    (key ∉ (dispatchNotification webhookUrl k st).claimed →
      countPosts key (dispatchNotification webhookUrl k st) = 0) := by
  unfold dispatchNotification
  by_cases hmem : k ∈ st.claimed
  · rw [if_pos hmem]
    exact ⟨h1, h2⟩
  · rw [if_neg hmem]
    rcases st with ⟨claimed, posts⟩
    cases webhookUrl
    · refine ⟨h1, ?_⟩
      intro hnot
      simp only [List.mem_cons, not_or] at hnot
      exact h2 hnot.2
    · rw [countPosts_push]
      by_cases hk : k = key
      · subst hk
        have h0 : countPosts k ⟨k :: claimed, posts⟩ = 0 := h2 hmem
        refine ⟨by simp [h0], ?_⟩
        intro hnot
        exact absurd (List.mem_cons_self k claimed) hnot
      · refine ⟨by simpa [hk] using h1, ?_⟩
        intro hnot
        simp only [List.mem_cons, not_or] at hnot
        simpa [hk] using h2 hnot.2

theorem runDispatches_bound (key : NotifKey) (calls : List (Option String × NotifKey)) :
    ∀ st : NotifState, countPosts key st ≤ 1 → (key ∉ st.claimed → countPosts key st = 0) →
      countPosts key (runDispatches calls st) ≤ 1 := by
  induction calls with
  | nil => intro st h1 _; exact h1
  | cons c cs ih =>
    intro st h1 h2
    have step := dispatch_preserves_bound key c.1 c.2 st h1 h2
    exact ih (dispatchNotification c.1 c.2 st) step.1 step.2

/-- C4: the notifier first claims the (itemId, snapshotId, eventType) row;
a claim that hits the unique constraint returns silently with no webhook
POST and no further state change; consequently, across any sequence of
dispatch attempts starting from a table without the key, at most one
webhook POST is performed for that key. -/
theorem notification_at_most_once (calls : List (Option String × NotifKey))
    (key : NotifKey) :
    (∀ (webhookUrl : Option String) (st : NotifState), key ∈ st.claimed →
      dispatchNotification webhookUrl key st = st) ∧
    countPosts key (runDispatches calls ⟨[], []⟩) ≤ 1 := by
  constructor
  · intro webhookUrl st hmem
    unfold dispatchNotification
    rw [if_pos hmem]
  · exact runDispatches_bound key calls ⟨[], []⟩ (by simp [countPosts])
      (fun _ => by simp [countPosts])

/-- C4 witness: a dispatch for an already-claimed key is a no-op, and a
concrete repeated-dispatch sequence performs at most one POST. -/
theorem notification_at_most_once_witness :
    dispatchNotification (some "https://discord.example/webhook") testNotifKey
        testClaimedState = testClaimedState ∧
    countPosts testNotifKey (runDispatches testNotifCalls ⟨[], []⟩) ≤ 1 :=
  ⟨(notification_at_most_once testNotifCalls testNotifKey).1
      (some "https://discord.example/webhook") testClaimedState
      (by simp [testClaimedState]),
   (notification_at_most_once testNotifCalls testNotifKey).2⟩

/-- C7: candidate selection adds 0.05 for a carried name and 0.05 for a
carried price with a 0.99 cap, picks the top of the stable descending sort
(whose head dominates every adjusted candidate), and applies the 0.10
ambiguity penalty with floor 0.50 exactly when the runner-up carries a
numeric price different from the top's and trails by strictly less than
0.05. -/
theorem choose_best_candidate_spec (candidates : List Candidate)
    (h : candidates ≠ []) :
    ∃ top rest,
      sortByConfDesc (candidates.map adjustCandidate) = top :: rest ∧
      (∀ c ∈ candidates.map adjustCandidate, c.confidence ≤ top.confidence) ∧
      (∀ c ∈ candidates, (adjustCandidate c).confidence =
        min (c.confidence + (if candidateHasName c = true then 5 / 100 else 0)
          + (if candidateHasPrice c = true then 5 / 100 else 0)) (99 / 100)) ∧
      chooseBestCandidate candidates =
        (if ambiguityPenaltyCond top rest.head? = true then
          { top with confidence := max (1 / 2) (top.confidence - 1 / 10) }
        else top) := by
  have hperm := List.perm_insertionSort confGe (candidates.map adjustCandidate)
  cases hs : sortByConfDesc (candidates.map adjustCandidate) with
  | nil =>
    exfalso
    have hmapnil : candidates.map adjustCandidate = [] := by
      have h2 : List.Perm ([] : List Candidate) (candidates.map adjustCandidate) := by
        rw [← hs]
        exact hperm
      exact h2.symm.eq_nil
    exact h (List.map_eq_nil_iff.mp hmapnil)
  | cons top rest =>
    have hsorted := List.sorted_insertionSort confGe (candidates.map adjustCandidate)
    have hs' : List.insertionSort confGe (candidates.map adjustCandidate) = top :: rest := hs
    rw [hs'] at hsorted
    refine ⟨top, rest, rfl, ?_, ?_, ?_⟩
    · intro c hc
      have hmem : c ∈ top :: rest := by
        rw [← hs']
        exact (hperm.mem_iff).mpr hc
      rcases List.mem_cons.mp hmem with rfl | hmem'
      · exact le_refl _
      · exact (List.sorted_cons.mp hsorted).1 c hmem'
    · intro c _
      rfl
    · unfold chooseBestCandidate
      have hne : candidates.isEmpty = false := by
        cases candidates
        · exact absurd rfl h
        · rfl
      rw [hne]
      simp only [Bool.false_eq_true, if_false, hs]

/-- C7 witness: the selection rules applied to a JSON-LD candidate (0.95)
and a meta candidate (0.82): both bonuses apply and the cap fires. -/
theorem choose_best_candidate_spec_witness :
    (adjustCandidate jsonLdCandidate).confidence = 99 / 100 := by
  obtain ⟨top, rest, hs, hmax, hformula, hresult⟩ :=
    choose_best_candidate_spec [jsonLdCandidate, metaCandidate]
      (List.cons_ne_nil _ _)
  have hn : candidateHasName jsonLdCandidate = true := by decide
  have hp : candidateHasPrice jsonLdCandidate = true := by decide
  have hc : jsonLdCandidate.confidence = 95 / 100 := rfl
  rw [hformula jsonLdCandidate (List.mem_cons_self _ _), if_pos hn, if_pos hp, hc]
  norm_num [min_def]

theorem inStockFromState_projection (s : StockState) :
    stockProjectionInvariant (inStockFromState s) s := by
  cases s <;> decide

theorem shopify_stock_projection (s0 : StockState) (pa : Option Bool) :
    stockProjectionInvariant (inStockFromState (shopifyStockState s0 pa) <|> pa)
      (shopifyStockState s0 pa) := by
  cases s0 <;> rcases pa with _ | b <;> first | decide | (cases b <;> decide)

theorem ai_unknown_projection (inStock : Option Bool) (vs : StockState) :
    stockProjectionInvariant
      (normalizeInStockFromState inStock
        (if vs ≠ .UNKNOWN then vs
         else match inStock with
           | some true => .IN_STOCK
           | some false => .OUT_OF_STOCK
           | none => .UNKNOWN))
      (if vs ≠ .UNKNOWN then vs
       else match inStock with
         | some true => .IN_STOCK
         | some false => .OUT_OF_STOCK
         | none => .UNKNOWN) := by
  cases vs <;> rcases inStock with _ | b <;> first | decide | (cases b <;> decide)

theorem ai_stock_projection (state : StockState) (inStock : Option Bool)
    (variants : List VariantStock) :
    stockProjectionInvariant
      (normalizeInStockFromState inStock (normalizeAiStockState state inStock variants))
      (normalizeAiStockState state inStock variants) := by
  cases state
  case IN_STOCK => exact (by decide : stockProjectionInvariant (some true) .IN_STOCK)
  case OUT_OF_STOCK => exact (by decide : stockProjectionInvariant (some false) .OUT_OF_STOCK)
  case PARTIAL => exact (by decide : stockProjectionInvariant (some true) .PARTIAL)
  case UNKNOWN => exact ai_unknown_projection inStock _

/-- C10: every extraction path in the embedding satisfies the projection
invariant between inStock and stockState: the Shopify adapter, the Best
Buy adapter, the static stock detection pair of detectStockStatus (also
used as-is by the playwright path), and the AI post-processing pair. -/
theorem extract_results_satisfy_projection :
    (∀ payload sourceUrl endpointUrl r,
      extractFromShopifyPayload payload sourceUrl endpointUrl = some r →
        stockProjectionInvariant r.inStock r.stockState) ∧
    (∀ payload sourceUrl endpointUrl r,
      extractFromBestBuyPayload payload sourceUrl endpointUrl = some r →
        stockProjectionInvariant r.inStock r.stockState) ∧
    (∀ pageState vin vout,
      stockProjectionInvariant (detectStockStatusResult pageState vin vout).1
        (detectStockStatusResult pageState vin vout).2) ∧
    (∀ state inStock variants,
      stockProjectionInvariant
        (normalizeInStockFromState inStock (normalizeAiStockState state inStock variants))
        (normalizeAiStockState state inStock variants)) := by
  refine ⟨?_, ?_, ?_, ?_⟩
  · intro payload sourceUrl endpointUrl r h
    simp only [extractFromShopifyPayload] at h
    split at h
    · exact absurd h (by simp)
    · split at h
      · exact absurd h (by simp)
      · rw [Option.some_inj] at h
        subst h
        exact shopify_stock_projection _ _
  · intro payload sourceUrl endpointUrl r h
    simp only [extractFromBestBuyPayload] at h
    split at h
    · exact absurd h (by simp)
    · split at h
      · exact absurd h (by simp)
      · rw [Option.some_inj] at h
        subst h
        exact inStockFromState_projection _
  · intro pageState vin vout
    exact inStockFromState_projection _
  · intro state inStock variants
    exact ai_stock_projection state inStock variants

/-- C10 witness: the Best Buy conjunct applied to a name-only payload
(stockState UNKNOWN projects to a null inStock), discharging the
extraction equation by evaluation. -/
theorem extract_results_satisfy_projection_witness :
    stockProjectionInvariant
      (ExtractResult.inStock ⟨"Gadget", none, none, .UNKNOWN, [], 96 / 100, "static"⟩)
      (ExtractResult.stockState ⟨"Gadget", none, none, .UNKNOWN, [], 96 / 100, "static"⟩) :=
  extract_results_satisfy_projection.2.1 bestBuyNamePayload
    "https://www.bestbuy.ca/en-ca/product/123456"
    "https://www.bestbuy.ca/api/v2/json/product/123456"
    ⟨"Gadget", none, none, .UNKNOWN, [], 96 / 100, "static"⟩ rfl

/-- C8: parsePriceFromText picks the decimal separator of the first
matched numeric token: with both '.' and ',' present the later occurrence
wins; with exactly one present it is decimal only when exactly two
characters (necessarily digits) trail it, otherwise every separator is
removed as a thousands separator; the parse rejects a non-positive value
and otherwise returns priceCents = round(value * 100) with round half
up. -/
theorem parse_price_from_text_spec (s : String) :
    (firstNumericToken (trimWs (collapseWs s.data)) = none →
      parsePriceFromText s = none) ∧
    (∀ tok, firstNumericToken (trimWs (collapseWs s.data)) = some tok →
      (∀ d c, lastIdxOf '.' (rawToken tok) = some d →
        lastIdxOf ',' (rawToken tok) = some c →
        detectDecimalSeparator (rawToken tok) = some (if c < d then '.' else ',')) ∧
      (∀ d, lastIdxOf '.' (rawToken tok) = some d →
        lastIdxOf ',' (rawToken tok) = none →
        detectDecimalSeparator (rawToken tok) =
          (if (rawToken tok).length - d - 1 = 2 then some '.' else none)) ∧
      (∀ c, lastIdxOf ',' (rawToken tok) = some c →
        lastIdxOf '.' (rawToken tok) = none →
        detectDecimalSeparator (rawToken tok) =
          (if (rawToken tok).length - c - 1 = 2 then some ',' else none)) ∧
      (detectDecimalSeparator (rawToken tok) = none →
        normalizeNumber (rawToken tok) (detectDecimalSeparator (rawToken tok)) =
          (rawToken tok).filter (fun ch => !isSepChar ch)) ∧
      (∀ v, parseFloatQ (normalizeNumber (rawToken tok)
          (detectDecimalSeparator (rawToken tok))) = some v →
        (v ≤ 0 → parsePriceFromText s = none) ∧
        (0 < v → parsePriceFromText s = some ⟨⌊v * 100 + 1 / 2⌋, v⟩))) := by
  constructor
  · intro h
    simp only [parsePriceFromText, h]
  · intro tok htok
    refine ⟨?_, ?_, ?_, ?_, ?_⟩
    · intro d c hd hc
      simp only [detectDecimalSeparator, hd, hc]
    · intro d hd hc
      simp only [detectDecimalSeparator, hd, hc]
    · intro c hc hd
      simp only [detectDecimalSeparator, hd, hc]
    · intro hnone
      rw [hnone]
      rfl
    · intro v hv
      constructor
      · intro hv0
        simp only [parsePriceFromText, htok, hv, if_pos hv0]
      · intro hvpos
        simp only [parsePriceFromText, htok, hv, if_neg (not_le.mpr hvpos)]
        rfl

/-- C8 witness: the parser applied to "$135": the token is "135", no
separator is present, the value 135 is positive, and the cent conversion
rounds 13500.5 down to 13500. -/
theorem parse_price_from_text_spec_witness :
    parsePriceFromText "$135" = some ⟨13500, 135⟩ := by
  have happ := ((parse_price_from_text_spec "$135").2 ['1', '3', '5'] rfl).2.2.2.2
    135 rfl
  have h := happ.2 (by norm_num)
  rw [h]
  norm_num

/-- C9 counterexample: the normalizer strips only a single trailing slash,
so a path ending in a double slash needs two passes: normalizing
"https://example.com/a//" yields "https://example.com/a/", and normalizing
that yields "https://example.com/a", so the normalizer is not idempotent
at this input. -/
theorem normalize_url_not_idempotent_counterexample :
    normalizeTrackedUrl "https://example.com/a//" = some "https://example.com/a/" ∧
    normalizeTrackedUrl "https://example.com/a/" = some "https://example.com/a" ∧
    (some "https://example.com/a" : Option String) ≠ some "https://example.com/a/" := by
  refine ⟨by decide, by decide, by decide⟩

theorem toNat_ofNat_valid (n : Nat) (h : n.isValidChar) : (Char.ofNat n).toNat = n := by
  simp only [Char.ofNat, dif_pos h, Char.ofNatAux, Char.toNat, UInt32.toNat]
  rfl

theorem lowerChar_eq_or (c : Char) :
    lowerChar c = c ∨
      (65 ≤ c.toNat ∧ c.toNat ≤ 90 ∧ (lowerChar c).toNat = c.toNat + 32) := by
  unfold lowerChar
  by_cases h : ('A' ≤ c && c ≤ 'Z') = true
  · right
    have h' := h
    rw [Bool.and_eq_true, decide_eq_true_eq, decide_eq_true_eq] at h'
    have h1 : 65 ≤ c.toNat := h'.1
    have h2 : c.toNat ≤ 90 := h'.2
    refine ⟨h1, h2, ?_⟩
    rw [if_pos h]
    exact toNat_ofNat_valid _ (Or.inl (by omega))
  · left
    rw [if_neg h]

theorem lowerChar_idem (c : Char) : lowerChar (lowerChar c) = lowerChar c := by
  rcases lowerChar_eq_or c with h | ⟨h1, h2, h3⟩
  · rw [h]
    exact h
  · rcases lowerChar_eq_or (lowerChar c) with h' | ⟨h1', h2', _⟩
    · exact h'
    · omega

theorem lowerStr_idem (l : List Char) : lowerStr (lowerStr l) = lowerStr l := by
  unfold lowerStr
  rw [List.map_map]
  exact List.map_congr_left (fun c _ => lowerChar_idem c)

/-- Lowercasing cannot produce a character outside the lowercase-letter
range, so it preserves not being such a character. -/
theorem lowerChar_ne (c d : Char) (hd : ¬(97 ≤ d.toNat ∧ d.toNat ≤ 122))
    (h : c ≠ d) : lowerChar c ≠ d := by
  rcases lowerChar_eq_or c with he | ⟨h1, h2, h3⟩
  · rw [he]; exact h
  · intro he
    rw [← he] at hd
    omega

theorem lowerChar_isSchemeChar (c : Char) (h : isSchemeChar c = true) :
    isSchemeChar (lowerChar c) = true := by
  rcases lowerChar_eq_or c with he | ⟨h1, h2, h3⟩
  · rw [he]; exact h
  · have ha : 97 ≤ (lowerChar c).toNat := by omega
    have hb : (lowerChar c).toNat ≤ 122 := by omega
    simp only [isSchemeChar, isAlnumChar, Bool.or_eq_true, Bool.and_eq_true,
      decide_eq_true_eq]
    have hab : 'a' ≤ lowerChar c ∧ lowerChar c ≤ 'z' := ⟨ha, hb⟩
    tauto

theorem lowerChar_isAlphaChar (c : Char) (h : isAlphaChar c = true) :
    isAlphaChar (lowerChar c) = true := by
  rcases lowerChar_eq_or c with he | ⟨h1, h2, h3⟩
  · rw [he]; exact h
  · have ha : 97 ≤ (lowerChar c).toNat := by omega
    have hb : (lowerChar c).toNat ≤ 122 := by omega
    simp only [isAlphaChar, Bool.or_eq_true, Bool.and_eq_true, decide_eq_true_eq]
    exact Or.inl ⟨ha, hb⟩

theorem splitAtFirst_not_mem (ch : Char) (l : List Char) (h : ch ∉ l) :
    splitAtFirst ch l = (l, none) := by
  induction l with
  | nil => rfl
  | cons c rest ih =>
    simp only [List.mem_cons, not_or] at h
    have hne : ¬(c = ch) := fun he => h.1 (he.symm)
    rw [splitAtFirst, if_neg hne, ih h.2]

theorem splitAtFirst_append (ch : Char) (a b : List Char) (h : ch ∉ a) :
    splitAtFirst ch (a ++ ch :: b) = (a, some b) := by
  induction a with
  | nil => simp [splitAtFirst]
  | cons c rest ih =>
    simp only [List.mem_cons, not_or] at h
    have hne : ¬(c = ch) := fun he => h.1 (he.symm)
    rw [List.cons_append, splitAtFirst, if_neg hne, ih h.2]

theorem takeWhile_append_head_fail (p : Char → Bool) (a b : List Char)
    (ha : ∀ c ∈ a, p c = true) (hb : ∀ x, b.head? = some x → p x = false) :
    (a ++ b).takeWhile p = a ∧ (a ++ b).drop a.length = b := by
  refine ⟨?_, List.drop_left a b⟩
  rw [List.takeWhile_append_of_pos ha]
  cases b with
  | nil => simp
  | cons x xs =>
    rw [List.takeWhile_cons_of_neg]
    · simp
    · simp [hb x rfl]

theorem hexVal_hexDigitChar (n : Nat) (h : n < 16) :
    hexVal (hexDigitChar n) = some n := by
  interval_cases n <;> decide

/-- Characters produced by the query encoder are never one of the URL
delimiter characters. -/
theorem hexDigitChar_no_delim (n : Nat) (h : n < 16) :
    hexDigitChar n ≠ '&' ∧ hexDigitChar n ≠ '=' ∧ hexDigitChar n ≠ '#' := by
  interval_cases n <;> refine ⟨by decide, by decide, by decide⟩

theorem encodeParamChar_no_delim (c x : Char) (hx : x ∈ encodeParamChar c) :
    x ≠ '&' ∧ x ≠ '=' ∧ x ≠ '#' := by
  unfold encodeParamChar at hx
  split_ifs at hx with h1 h2
  · rw [List.mem_singleton] at hx
    subst hx
    refine ⟨?_, ?_, ?_⟩ <;> (rintro rfl; simp [isAlnumChar, isDigitChar] at h1)
  · simp only [List.mem_cons, List.not_mem_nil, or_false] at hx
    rcases hx with rfl | rfl | rfl
    · refine ⟨by decide, by decide, by decide⟩
    · exact hexDigitChar_no_delim _ (by omega)
    · exact hexDigitChar_no_delim _ (by omega)
  · rw [List.mem_singleton] at hx
    subst hx
    refine ⟨?_, ?_, ?_⟩ <;> (rintro rfl; exact h2 (by decide))

theorem encodeParam_no_delim (l : List Char) (x : Char) (hx : x ∈ encodeParam l) :
    x ≠ '&' ∧ x ≠ '=' ∧ x ≠ '#' := by
  unfold encodeParam at hx
  rw [List.mem_flatten] at hx
  obtain ⟨s, hs, hxs⟩ := hx
  rw [List.mem_map] at hs
  obtain ⟨c, _, rfl⟩ := hs
  exact encodeParamChar_no_delim c x hxs

theorem decodeParam_cons_other (c : Char) (t : List Char) (h1 : c ≠ '%') (h2 : c ≠ '+') :
    decodeParam (c :: t) = c :: decodeParam t := by
  conv_lhs => rw [decodeParam.eq_def]
  split <;> simp_all

theorem decodeParam_encodeParam (l : List Char) : decodeParam (encodeParam l) = l := by
  induction l with
  | nil => rfl
  | cons c rest ih =>
    show decodeParam (encodeParamChar c ++ encodeParam rest) = c :: rest
    unfold encodeParamChar
    split_ifs with h1 h2
    · have hpc : c ≠ '%' := by rintro rfl; simp [isAlnumChar, isDigitChar] at h1
      have hplus : c ≠ '+' := by rintro rfl; simp [isAlnumChar, isDigitChar] at h1
      rw [List.singleton_append, decodeParam_cons_other c _ hpc hplus, ih]
    · have hv1 : hexVal (hexDigitChar (c.toNat / 16)) = some (c.toNat / 16) :=
        hexVal_hexDigitChar _ (by omega)
      have hv2 : hexVal (hexDigitChar (c.toNat % 16)) = some (c.toNat % 16) :=
        hexVal_hexDigitChar _ (by omega)
      rw [List.cons_append, List.cons_append, List.cons_append, decodeParam, hv1, hv2]
      show Char.ofNat (16 * (c.toNat / 16) + c.toNat % 16) :: decodeParam (encodeParam rest)
        = c :: rest
      rw [Nat.div_add_mod, Char.ofNat_toNat, ih]
    · have hpc : c ≠ '%' := by rintro rfl; exact h2 (by decide)
      have hplus : c ≠ '+' := by rintro rfl; exact h2 (by decide)
      rw [List.singleton_append, decodeParam_cons_other c _ hpc hplus, ih]

theorem piecesOnAmp_no_amp (p : List Char) (h : '&' ∉ p) : piecesOnAmp p = [p] := by
  induction p with
  | nil => rfl
  | cons c rest ih =>
    simp only [List.mem_cons, not_or] at h
    have hne : ¬(c = '&') := fun he => h.1 he.symm
    rw [piecesOnAmp, if_neg hne, ih h.2]

theorem piecesOnAmp_append (p t : List Char) (h : '&' ∉ p) :
    piecesOnAmp (p ++ '&' :: t) = p :: piecesOnAmp t := by
  induction p with
  | nil => simp [piecesOnAmp]
  | cons c rest ih =>
    simp only [List.mem_cons, not_or] at h
    have hne : ¬(c = '&') := fun he => h.1 he.symm
    rw [List.cons_append, piecesOnAmp, if_neg hne, ih h.2]

theorem piecesOnAmp_joinAmp (ps : List (List Char)) (hne : ps ≠ [])
    (h : ∀ p ∈ ps, '&' ∉ p) : piecesOnAmp (joinAmp ps) = ps := by
  induction ps with
  | nil => exact absurd rfl hne
  | cons p rest ih =>
    cases rest with
    | nil => exact piecesOnAmp_no_amp p (h p (List.mem_cons_self _ _))
    | cons q qs =>
      have hj : joinAmp (p :: q :: qs) = p ++ '&' :: joinAmp (q :: qs) := rfl
      rw [hj, piecesOnAmp_append _ _ (h p (List.mem_cons_self _ _))]
      rw [ih (List.cons_ne_nil _ _) (fun x hx => h x (List.mem_cons_of_mem _ hx))]

theorem serializeParam_ne_nil (kv : List Char × List Char) : serializeParam kv ≠ [] := by
  intro he
  unfold serializeParam at he
  simp at he

theorem serializeParam_no_amp (kv : List Char × List Char) : '&' ∉ serializeParam kv := by
  intro hmem
  unfold serializeParam at hmem
  rw [List.mem_append] at hmem
  rcases hmem with hk | hv
  · exact (encodeParam_no_delim _ _ hk).1 rfl
  · rw [List.mem_cons] at hv
    rcases hv with he | hv
    · exact absurd he (by decide)
    · exact (encodeParam_no_delim _ _ hv).1 rfl

theorem parseQueryPiece_serializeParam (kv : List Char × List Char) :
    parseQueryPiece (serializeParam kv) = kv := by
  unfold parseQueryPiece serializeParam
  rw [splitAtFirst_append '=' _ _
    (fun hmem => (encodeParam_no_delim _ _ hmem).2.1 rfl)]
  show (decodeParam (encodeParam kv.1), decodeParam (encodeParam kv.2)) = kv
  rw [decodeParam_encodeParam, decodeParam_encodeParam]

theorem parseQuery_serializeParams (ps : List (List Char × List Char)) (hne : ps ≠ []) :
    parseQuery (joinAmp (ps.map serializeParam)) = ps := by
  unfold parseQuery
  rw [piecesOnAmp_joinAmp]
  · rw [List.filter_eq_self.mpr, List.map_map]
    · have hcomp : parseQueryPiece ∘ serializeParam = id :=
        funext (fun kv => parseQueryPiece_serializeParam kv)
      rw [hcomp, List.map_id]
    · intro a ha
      rw [List.mem_map] at ha
      obtain ⟨kv, _, rfl⟩ := ha
      simpa [List.isEmpty_iff] using serializeParam_ne_nil kv
  · simpa [List.map_eq_nil_iff] using hne
  · intro p hp
    rw [List.mem_map] at hp
    obtain ⟨kv, _, rfl⟩ := hp
    exact serializeParam_no_amp kv

theorem keyLe_total (a b : List Char) : keyLe a b = true ∨ keyLe b a = true := by
  induction a generalizing b with
  | nil => left; rfl
  | cons c cs ih =>
    cases b with
    | nil => right; rfl
    | cons d ds =>
      by_cases h1 : c.toNat < d.toNat
      · left
        rw [keyLe, if_pos h1]
      · by_cases h2 : d.toNat < c.toNat
        · right
          rw [keyLe, if_pos h2]
        · rcases ih ds with h | h
          · left
            rw [keyLe, if_neg h1, if_neg h2]
            exact h
          · right
            rw [keyLe, if_neg h2, if_neg h1]
            exact h

theorem keyLe_trans (a b c : List Char) (h1 : keyLe a b = true) (h2 : keyLe b c = true) :
    keyLe a c = true := by
  induction a generalizing b c with
  | nil => rfl
  | cons x xs ih =>
    cases b with
    | nil => simp [keyLe] at h1
    | cons y ys =>
      cases c with
      | nil => simp [keyLe] at h2
      | cons z zs =>
        rw [keyLe] at h1 h2 ⊢
        split_ifs at h1 h2 ⊢ <;> first | rfl | omega | exact ih ys zs h1 h2

instance : IsTotal (List Char × List Char) paramLe :=
  ⟨fun a b => keyLe_total a.1 b.1⟩

instance : IsTrans (List Char × List Char) paramLe :=
  ⟨fun a b c h1 h2 => keyLe_trans a.1 b.1 c.1 h1 h2⟩

theorem sortParams_idem (ps : List (List Char × List Char)) :
    sortParams (sortParams ps) = sortParams ps :=
  List.Sorted.insertionSort_eq (List.sorted_insertionSort paramLe ps)

theorem mem_sortParams (ps : List (List Char × List Char)) (kv : List Char × List Char) :
    kv ∈ sortParams ps ↔ kv ∈ ps :=
  (List.perm_insertionSort paramLe ps).mem_iff

theorem filter_sortParams_of_all (ps : List (List Char × List Char))
    (p : List Char × List Char → Bool) (h : ∀ kv ∈ ps, p kv = true) :
    (sortParams ps).filter p = sortParams ps :=
  List.filter_eq_self.mpr (fun kv hkv => h kv ((mem_sortParams ps kv).mp hkv))

theorem mem_joinAmp (ps : List (List Char)) (x : Char) (hx : x ∈ joinAmp ps) :
    x = '&' ∨ ∃ p ∈ ps, x ∈ p := by
  induction ps with
  | nil => simp [joinAmp] at hx
  | cons p rest ih =>
    cases rest with
    | nil =>
      right
      exact ⟨p, List.mem_cons_self _ _, hx⟩
    | cons q qs =>
      have hj : joinAmp (p :: q :: qs) = p ++ '&' :: joinAmp (q :: qs) := rfl
      rw [hj, List.mem_append, List.mem_cons] at hx
      rcases hx with hp | rfl | hrest
      · right
        exact ⟨p, List.mem_cons_self _ _, hp⟩
      · left; rfl
      · rcases ih hrest with he | ⟨r, hr, hxr⟩
        · left; exact he
        · right; exact ⟨r, List.mem_cons_of_mem _ hr, hxr⟩

theorem serializeParam_no_hash (kv : List Char × List Char) : '#' ∉ serializeParam kv := by
  intro hmem
  unfold serializeParam at hmem
  rw [List.mem_append] at hmem
  rcases hmem with hk | hv
  · exact (encodeParam_no_delim _ _ hk).2.2 rfl
  · rw [List.mem_cons] at hv
    rcases hv with he | hv
    · exact absurd he (by decide)
    · exact (encodeParam_no_delim _ _ hv).2.2 rfl

theorem joinAmp_params_no_hash (ps : List (List Char × List Char)) :
    '#' ∉ joinAmp (ps.map serializeParam) := by
  intro hmem
  rcases mem_joinAmp _ _ hmem with he | ⟨p, hp, hxp⟩
  · exact absurd he (by decide)
  · rw [List.mem_map] at hp
    obtain ⟨kv, _, rfl⟩ := hp
    exact serializeParam_no_hash kv hxp

theorem splitAtFirst_fst_not_mem (ch : Char) (l : List Char) :
    ch ∉ (splitAtFirst ch l).1 := by
  induction l with
  | nil => simp [splitAtFirst]
  | cons c rest ih =>
    by_cases hc : c = ch
    · rw [splitAtFirst, if_pos hc]
      simp
    · rw [splitAtFirst, if_neg hc]
      simp only [List.mem_cons, not_or]
      exact ⟨fun he => hc he.symm, ih⟩

theorem splitAtFirst_fst_mem (ch : Char) (l : List Char) (x : Char)
    (hx : x ∈ (splitAtFirst ch l).1) : x ∈ l := by
  induction l with
  | nil => simp [splitAtFirst] at hx
  | cons c rest ih =>
    by_cases hc : c = ch
    · rw [splitAtFirst, if_pos hc] at hx
      simp at hx
    · rw [splitAtFirst, if_neg hc] at hx
      rcases List.mem_cons.mp hx with he | hm
      · exact he ▸ List.mem_cons_self c rest
      · exact List.mem_cons_of_mem c (ih hm)

theorem splitAtFirst_fst_head (ch : Char) (l : List Char) (c : Char)
    (cs : List Char) (h : (splitAtFirst ch l).1 = c :: cs) : l.head? = some c := by
  cases l with
  | nil => simp [splitAtFirst] at h
  | cons a rest =>
    by_cases ha : a = ch
    · rw [splitAtFirst, if_pos ha] at h
      simp at h
    · rw [splitAtFirst, if_neg ha] at h
      injection h with h1 _
      rw [h1]
      rfl

theorem drop_length_takeWhile (p : Char → Bool) (l : List Char) :
    l.drop (l.takeWhile p).length = l.dropWhile p := by
  induction l with
  | nil => rfl
  | cons c rest ih =>
    cases hc : p c
    · rw [List.takeWhile_cons_of_neg (by simp [hc]),
        List.dropWhile_cons_of_neg (by simp [hc])]
      rfl
    · rw [List.takeWhile_cons_of_pos (by simp [hc]),
        List.dropWhile_cons_of_pos (by simp [hc])]
      simpa using ih

theorem dropWhile_head_false (p : Char → Bool) (l : List Char) (c : Char)
    (cs : List Char) (h : l.dropWhile p = c :: cs) : p c = false := by
  induction l with
  | nil => simp [List.dropWhile] at h
  | cons a rest ih =>
    cases ha : p a
    · rw [List.dropWhile_cons_of_neg (by simp [ha])] at h
      injection h with h1 _
      rw [← h1]
      exact ha
    · rw [List.dropWhile_cons_of_pos (by simp [ha])] at h
      exact ih h

theorem parseUrl_wellFormed (l : List Char) (u : UrlParts)
    (h : parseUrl l = some u) : wellFormedParts u := by
  unfold parseUrl at h
  split at h
  next schemeRaw rest hsp =>
    split at h
    next => exact absurd h (by simp)
    next hg =>
      split at h
      next c0 hhd =>
        split at h
        next => exact absurd h (by simp)
        next ha =>
          split at h
          next rest2 =>
            simp only [] at h
            rcases hbf : splitAtFirst '#'
                (List.drop (List.takeWhile
                  (fun c => decide (c ≠ '/') && decide (c ≠ '?') && decide (c ≠ '#'))
                  rest2).length rest2)
              with ⟨beforeFrag, fragOpt⟩
            rw [hbf] at h
            rcases hpq : splitAtFirst '?' beforeFrag with ⟨rawPath, queryOpt⟩
            rw [hpq] at h
            simp only [Option.some_inj] at h
            subst h
            simp only [Bool.or_eq_true, not_or, Bool.not_eq_true,
              Bool.not_eq_true'] at hg
            obtain ⟨hgne, hgall⟩ := hg
            simp only [Bool.not_eq_true'] at ha
            obtain ⟨a, tl, hsr⟩ : ∃ a tl, schemeRaw = a :: tl := by
              cases hsR : schemeRaw with
              | nil =>
                rw [hsR] at hgne
                simp at hgne
              | cons a tl => exact ⟨a, tl, rfl⟩
            have hac0 : a = c0 := by
              rw [hsr] at hhd
              simpa using hhd
            rw [Bool.not_eq_false] at hgall ha
            have hnolow : ∀ d : Char, d = '/' ∨ d = '?' ∨ d = '#' →
                ¬(97 ≤ d.toNat ∧ d.toNat ≤ 122) := by
              intro d hd
              rcases hd with rfl | rfl | rfl <;> decide
            unfold wellFormedParts
            refine ⟨?_, ?_, ?_, ?_, ?_, ?_, ?_, ?_⟩
            · show lowerStr schemeRaw ≠ []
              rw [hsr]
              simp [lowerStr]
            · show (lowerStr schemeRaw).all isSchemeChar = true
              unfold lowerStr
              rw [List.all_map]
              rw [List.all_eq_true] at hgall ⊢
              exact fun c hc => lowerChar_isSchemeChar c (hgall c hc)
            · show ∀ d ds, lowerStr schemeRaw = d :: ds → isAlphaChar d = true
              intro d ds hd
              rw [hsr, hac0] at hd
              unfold lowerStr at hd
              rw [List.map_cons] at hd
              injection hd with hd1 _
              rw [← hd1]
              exact lowerChar_isAlphaChar c0 ha
            · exact lowerStr_idem schemeRaw
            · show ∀ c ∈ lowerStr (List.takeWhile
                  (fun c => decide (c ≠ '/') && decide (c ≠ '?') && decide (c ≠ '#'))
                  rest2), c ≠ '/' ∧ c ≠ '?' ∧ c ≠ '#'
              intro c hc
              unfold lowerStr at hc
              rw [List.mem_map] at hc
              obtain ⟨c', hc'mem, rfl⟩ := hc
              have hp := List.mem_takeWhile_imp hc'mem
              simp only [Bool.and_eq_true, decide_eq_true_eq] at hp
              exact ⟨lowerChar_ne c' '/' (hnolow '/' (Or.inl rfl)) hp.1.1,
                lowerChar_ne c' '?' (hnolow '?' (Or.inr (Or.inl rfl))) hp.1.2,
                lowerChar_ne c' '#' (hnolow '#' (Or.inr (Or.inr rfl))) hp.2⟩
            · exact lowerStr_idem _
            · show ∃ q, (if rawPath.isEmpty = true then ['/'] else rawPath) = '/' :: q
              by_cases hre : rawPath.isEmpty = true
              · exact ⟨[], by rw [if_pos hre]⟩
              · obtain ⟨rc, rcs, hrp⟩ : ∃ rc rcs, rawPath = rc :: rcs := by
                  cases hR : rawPath with
                  | nil =>
                    rw [hR] at hre
                    simp at hre
                  | cons rc rcs => exact ⟨rc, rcs, rfl⟩
                have hbh : beforeFrag.head? = some rc :=
                  splitAtFirst_fst_head '?' beforeFrag rc rcs (by rw [hpq, hrp])
                obtain ⟨bfs, hbfe⟩ : ∃ bfs, beforeFrag = rc :: bfs := by
                  cases hB : beforeFrag with
                  | nil =>
                    rw [hB] at hbh
                    simp at hbh
                  | cons b bs =>
                    rw [hB] at hbh
                    simp only [List.head?_cons, Option.some_inj] at hbh
                    exact ⟨bs, by rw [hbh]⟩
                have hah := splitAtFirst_fst_head '#' _ rc bfs
                  (by rw [hbf]; exact hbfe)
                rw [drop_length_takeWhile] at hah
                obtain ⟨t, hdw⟩ : ∃ t, List.dropWhile
                    (fun c => decide (c ≠ '/') && decide (c ≠ '?') && decide (c ≠ '#'))
                    rest2 = rc :: t := by
                  cases hD : List.dropWhile
                      (fun c => decide (c ≠ '/') && decide (c ≠ '?') && decide (c ≠ '#'))
                      rest2 with
                  | nil =>
                    rw [hD] at hah
                    simp at hah
                  | cons d ds =>
                    rw [hD] at hah
                    simp only [List.head?_cons, Option.some_inj] at hah
                    exact ⟨ds, by rw [hah]⟩
                have hpredf := dropWhile_head_false _ _ _ _ hdw
                have hnq : rc ≠ '?' := by
                  intro he
                  exact splitAtFirst_fst_not_mem '?' beforeFrag
                    (by rw [hpq, hrp, ← he]; exact List.mem_cons_self rc rcs)
                have hnh : rc ≠ '#' := by
                  intro he
                  refine splitAtFirst_fst_not_mem '#'
                    (List.drop (List.takeWhile
                      (fun c => decide (c ≠ '/') && decide (c ≠ '?') && decide (c ≠ '#'))
                      rest2).length rest2) ?_
                  rw [hbf]
                  show '#' ∈ beforeFrag
                  rw [hbfe, ← he]
                  exact List.mem_cons_self rc bfs
                have hslash : rc = '/' := by
                  simp only [Bool.and_eq_true, decide_eq_true_eq] at hpredf
                  by_contra hns
                  simp [hns, hnq, hnh] at hpredf
                refine ⟨rcs, ?_⟩
                rw [if_neg hre, hrp, hslash]
            · show ∀ c ∈ (if rawPath.isEmpty = true then ['/'] else rawPath),
                c ≠ '?' ∧ c ≠ '#'
              intro c hc
              by_cases hre : rawPath.isEmpty = true
              · rw [if_pos hre] at hc
                simp only [List.mem_cons, List.not_mem_nil, or_false] at hc
                rw [hc]
                exact ⟨by decide, by decide⟩
              · rw [if_neg hre] at hc
                refine ⟨fun he => ?_, fun he => ?_⟩
                · exact splitAtFirst_fst_not_mem '?' beforeFrag
                    (by rw [hpq]; exact he ▸ hc)
                · refine splitAtFirst_fst_not_mem '#'
                    (List.drop (List.takeWhile
                      (fun c => decide (c ≠ '/') && decide (c ≠ '?') && decide (c ≠ '#'))
                      rest2).length rest2) ?_
                  rw [hbf]
                  show '#' ∈ beforeFrag
                  exact splitAtFirst_fst_mem '?' beforeFrag '#'
                    (by rw [hpq]; exact he ▸ hc)
          next hx => exact absurd h (by simp)
      next => exact absurd h (by simp)
  next => exact absurd h (by simp)

theorem parseUrl_serializeUrl (u : UrlParts) (hw : wellFormedParts u)
    (hf : u.fragment = []) : parseUrl (serializeUrl u) = some u := by
  obtain ⟨h1, h2, h3, h4, h5, h6, ⟨q, hq⟩, h8⟩ := hw
  obtain ⟨c0, cs, hsc⟩ : ∃ c0 cs, u.scheme = c0 :: cs := by
    cases hs : u.scheme with
    | nil => exact absurd hs h1
    | cons c0 cs => exact ⟨c0, cs, rfl⟩
  set Q := (if u.params.isEmpty then ([] : List Char)
    else '?' :: joinAmp (u.params.map serializeParam)) with hQ
  have hser : serializeUrl u
      = u.scheme ++ ':' :: '/' :: '/' :: (u.host ++ (u.path ++ Q)) := by
    unfold serializeUrl
    rw [hf]
    simp only [List.isEmpty_nil, if_true, List.append_nil, List.append_assoc,
      List.cons_append]
  have hcolon : ':' ∉ u.scheme := by
    intro hmem
    have hall := List.all_eq_true.mp h2 _ hmem
    simp [isSchemeChar, isAlnumChar, isDigitChar] at hall
  have hnohash : '#' ∉ u.path ++ Q := by
    intro hmem
    rw [List.mem_append] at hmem
    rcases hmem with hp | hQmem
    · exact (h8 _ hp).2 rfl
    · rw [hQ] at hQmem
      split_ifs at hQmem with hps
      · simp at hQmem
      · rw [List.mem_cons] at hQmem
        rcases hQmem with he | hj
        · exact absurd he (by decide)
        · exact joinAmp_params_no_hash u.params hj
  have hpred : ∀ c ∈ u.host, (c ≠ '/' && c ≠ '?' && c ≠ '#') = true := by
    intro c hc
    obtain ⟨hs1, hs2, hs3⟩ := h5 c hc
    simp [hs1, hs2, hs3]
  have hheadfail : ∀ x : Char, (u.path ++ Q).head? = some x →
      (x ≠ '/' && x ≠ '?' && x ≠ '#') = false := by
    intro x hx
    rw [hq] at hx
    simp only [List.cons_append, List.head?_cons, Option.some_inj] at hx
    subst hx
    decide
  have htw := takeWhile_append_head_fail (fun c => c ≠ '/' && c ≠ '?' && c ≠ '#')
    u.host (u.path ++ Q) hpred hheadfail
  have ha : isAlphaChar c0 = true := h3 c0 cs hsc
  have hie : u.scheme.isEmpty = false := by rw [hsc]; rfl
  have hhd : u.scheme.head? = some c0 := by rw [hsc]; rfl
  rw [hser]
  unfold parseUrl
  rw [splitAtFirst_append ':' _ _ hcolon]
  simp only [hie, h2, Bool.not_true, Bool.or_false, Bool.false_eq_true, if_false,
    hhd, ha]
  rw [htw.1, htw.2, splitAtFirst_not_mem '#' _ hnohash]
  have hpathe : u.path.isEmpty = false := by rw [hq]; rfl
  have hqpath : '?' ∉ u.path := fun hm => (h8 _ hm).1 rfl
  by_cases hps : u.params = []
  · have hQnil : Q = [] := by rw [hQ, hps]; rfl
    rw [hQnil, List.append_nil, splitAtFirst_not_mem '?' _ hqpath]
    simp only [hpathe, Bool.false_eq_true, if_false, Option.getD_none, h4, h6]
    rw [show parseQuery ([] : List Char)
        = ([] : List (List Char × List Char)) from rfl, ← hps, ← hf]
  · have hQcons : Q = '?' :: joinAmp (u.params.map serializeParam) := by
      rw [hQ, if_neg]
      simp [hps]
    rw [hQcons, splitAtFirst_append '?' _ _ hqpath]
    simp only [hpathe, Bool.false_eq_true, if_false, Option.getD_some,
      Option.getD_none, h4, h6, parseQuery_serializeParams u.params hps]
    rw [← hf]

theorem stripTrailingSlashPath_head (p : List Char) (q : List Char)
    (hq : p = '/' :: q) : ∃ r, stripTrailingSlashPath p = '/' :: r := by
  unfold stripTrailingSlashPath
  split
  next hc =>
    cases hQ : q with
    | nil =>
      rw [hq, hQ] at hc
      simp at hc
    | cons q0 qs =>
      rw [hq, hQ, List.dropLast_cons₂]
      exact ⟨(q0 :: qs).dropLast, rfl⟩
  next => exact ⟨q, hq⟩

theorem stripTrailingSlashPath_mem (p : List Char) (c : Char)
    (hc : c ∈ stripTrailingSlashPath p) : c ∈ p := by
  unfold stripTrailingSlashPath at hc
  split at hc
  · exact (List.dropLast_sublist p).mem hc
  · exact hc

theorem wellFormedParts_normalize (u : UrlParts) (hw : wellFormedParts u) :
    wellFormedParts (normalizeUrlParts u) := by
  obtain ⟨h1, h2, h3, h4, h5, h6, ⟨q, hq⟩, h8⟩ := hw
  refine ⟨h1, h2, h3, h4, h5, h6, stripTrailingSlashPath_head u.path q hq,
    fun c hc => h8 c (stripTrailingSlashPath_mem u.path c hc)⟩

theorem stripTrailingSlashPath_idem (p : List Char)
    (hds : pathEndsDoubleSlash p = false) :
    stripTrailingSlashPath (stripTrailingSlashPath p) = stripTrailingSlashPath p := by
  by_cases hc : 1 < p.length ∧ p.getLast? = some '/'
  · have hp : stripTrailingSlashPath p = p.dropLast := by
      rw [stripTrailingSlashPath, if_pos hc]
    rw [hp, stripTrailingSlashPath, if_neg]
    intro hc2
    obtain ⟨l1, hl1⟩ := List.getLast?_eq_some_iff.mp hc.2
    have hdl : p.dropLast = l1 := by rw [hl1, List.dropLast_concat]
    obtain ⟨l2, hl2⟩ := List.getLast?_eq_some_iff.mp hc2.2
    rw [hdl] at hl2
    have hsuf : ['/', '/'].isSuffixOf p = true := by
      rw [List.isSuffixOf_iff_suffix]
      exact ⟨l2, by rw [hl1, hl2]; simp⟩
    rw [pathEndsDoubleSlash, hsuf] at hds
    exact absurd hds (by simp)
  · have hp : stripTrailingSlashPath p = p := by
      rw [stripTrailingSlashPath, if_neg hc]
    rw [hp]
    exact hp

theorem normalizeUrlParts_idem (u : UrlParts)
    (hds : pathEndsDoubleSlash u.path = false) :
    normalizeUrlParts (normalizeUrlParts u) = normalizeUrlParts u := by
  unfold normalizeUrlParts
  simp only [UrlParts.mk.injEq, true_and, and_true]
  refine ⟨stripTrailingSlashPath_idem u.path hds, ?_⟩
  rw [filter_sortParams_of_all]
  · exact sortParams_idem _
  · intro kv hkv
    exact (List.mem_filter.mp hkv).2

/-- C9 (amended): the spec claims normalizeTrackedUrl is idempotent on
every URL it accepts, but a path ending in two slashes refutes it, because
each run strips only one trailing slash. For every accepted input whose
parsed path does not end in a double slash, normalizing the normalized URL
returns it unchanged. -/
theorem normalize_tracked_url_idem (s : String) (u : UrlParts)
    (hp : parseUrl s.data = some u)
    (hds : pathEndsDoubleSlash u.path = false)
    (t : String) (ht : normalizeTrackedUrl s = some t) :
    normalizeTrackedUrl t = some t := by
  unfold normalizeTrackedUrl at ht ⊢
  rw [hp] at ht
  simp only [Option.map_some', Option.some_inj] at ht
  subst ht
  have hw := parseUrl_wellFormed s.data u hp
  have hwn := wellFormedParts_normalize u hw
  have hrt := parseUrl_serializeUrl (normalizeUrlParts u) hwn rfl
  rw [show (String.mk (serializeUrl (normalizeUrlParts u))).data
      = serializeUrl (normalizeUrlParts u) from rfl, hrt]
  simp only [Option.map_some', Option.some_inj]
  rw [normalizeUrlParts_idem u hds]

/-- Concrete instance of C9: the tracked URL with a sorted-away query and a
single trailing slash normalizes to a fixed point of the normalizer. -/
theorem normalize_tracked_url_idem_witness :
    normalizeTrackedUrl "https://example.com/a?a=1&b=2"
      = some "https://example.com/a?a=1&b=2" :=
  normalize_tracked_url_idem "https://example.com/a/?b=2&a=1"
    ⟨"https".data, "example.com".data, "/a/".data,
      [("b".data, "2".data), ("a".data, "1".data)], []⟩
    rfl rfl "https://example.com/a?a=1&b=2" rfl

end PriceTracker
